import Mathlib

/-!
Verification of the pcfg_tool core: a shallow embedding in Lean of the
tree model, Markovization and debinarization, grammar induction and
normalization, the CYK decoder, the OOV wiring and the chart addressing
scheme, together with theorems settling the specification claims.

Modelling conventions:
* Rust `SmallString` symbols are modelled as `List Char` (called `Sym`).
* Rust `f64` weights are modelled as `Rat`; the claims under scrutiny only
  involve products with 0 and 1 and order comparisons, which are exact in
  both arithmetics.
* Rust panics (`unwrap` on a failed parse, out-of-bounds indexing) are
  modelled by innocuous fallback values or by `Option`; every theorem
  below stays inside the panic-free region of the corresponding source
  function.
* Functions whose Rust recursion is not structural are given an explicit
  fuel argument; the exported wrapper instantiates the fuel with the tree
  size, which is proved sufficient, so all definitions compute.
-/

namespace Pcfg

/-- Rose tree over a label type, mirroring `Tree` of tree.rs:
a root of type A and an ordered list of children. -/
inductive Tree (α : Type) where
  | node (root : α) (children : List (Tree α)) : Tree α

/-- Root projection, mirroring the `root` field of tree.rs. -/
def Tree.root {α : Type} : Tree α → α
  | .node r _ => r

/-- Children projection, mirroring the `children` field of tree.rs. -/
def Tree.children {α : Type} : Tree α → List (Tree α)
  | .node _ cs => cs

/-- Leaf test, mirroring `Tree::is_leaf` of tree.rs. -/
def Tree.is_leaf {α : Type} (t : Tree α) : Bool :=
  t.children.isEmpty

mutual

/-- Number of nodes of a tree; used as fuel for the non-structural
recursions of the source. -/
def Tree.size {α : Type} : Tree α → Nat
  | .node _ cs => 1 + sizeL cs

/-- Total number of nodes of a list of trees. -/
def sizeL {α : Type} : List (Tree α) → Nat
  | [] => 0
  | c :: tl => Tree.size c + sizeL tl

end

mutual

/-- In-order list of leaf labels, mirroring `Tree::leaves` of tree.rs. -/
def Tree.leavesVals {α : Type} : Tree α → List α
  | .node r cs => if cs.isEmpty then [r] else leavesL cs

/-- Concatenated leaves of a list of trees, in order. -/
def leavesL {α : Type} : List (Tree α) → List α
  | [] => []
  | c :: tl => Tree.leavesVals c ++ leavesL tl

end

/-- Number of leaves of a tree. -/
def Tree.leafCount {α : Type} (t : Tree α) : Nat :=
  t.leavesVals.length

mutual

/-- Preorder flattening of a tree into (arity, label) pairs.  Distinct
trees have distinct flattenings, so it separates concrete trees without
a decidable-equality instance for the nested inductive. -/
def Tree.flat {α : Type} : Tree α → List (Nat × α)
  | .node r cs => (cs.length, r) :: flatL cs

/-- Preorder flattening of a list of trees. -/
def flatL {α : Type} : List (Tree α) → List (Nat × α)
  | [] => []
  | c :: tl => Tree.flat c ++ flatL tl

end

mutual

/-- All labels of a tree, in preorder. -/
def Tree.labels {α : Type} : Tree α → List α
  | .node r cs => r :: labelsL cs

/-- All labels of a list of trees. -/
def labelsL {α : Type} : List (Tree α) → List α
  | [] => []
  | c :: tl => Tree.labels c ++ labelsL tl

end

/-- Symbols of the source are short strings (`SmallString`); modelled as
character lists. -/
abbrev Sym : Type := List Char

/-- Markov-annotated label, mirroring `MarkovizedNode` of binarized/node.rs:
the bare label, the recorded sibling context (field `children` in the
source) and the recorded ancestor context. -/
structure MarkovizedNode (α : Type) where
  label : α
  children : List α
  ancestors : List α
deriving DecidableEq, Repr

/-- Binarized label, mirroring `Binarized` of binarized/node.rs. -/
inductive Binarized (α : Type) where
  | markovized (m : MarkovizedNode α) : Binarized α
  | bare (a : α) : Binarized α
deriving DecidableEq, Repr

/-- Mirrors `Binarized::is_markovized`: a label is markovized exactly when
its sibling annotation (field `children`) is non-empty; a bare label or a
markovized label with only ancestors is not. -/
def Binarized.is_markovized {α : Type} : Binarized α → Bool
  | .markovized m => !m.children.isEmpty
  | .bare _ => false

/-- Mirrors `Binarized::extract_label`. -/
def Binarized.extract_label {α : Type} : Binarized α → α
  | .markovized m => m.label
  | .bare a => a

/-- Comma-separated join of symbols, as produced by the Display loops of
binarized/node.rs: the first element plain, every further one preceded
by a comma. -/
def joinComma : List Sym → Sym
  | [] => []
  | [x] => x
  | x :: tl => x ++ ',' :: joinComma tl

/-- Mirrors the Display instance of `MarkovizedNode`: label, then the
sibling section delimited by bar-angle brackets when non-empty, then the
ancestor section delimited by caret-angle brackets when non-empty. -/
def displayMarkovized (m : MarkovizedNode Sym) : Sym :=
  m.label
    ++ (if m.children.isEmpty then [] else '|' :: '<' :: (joinComma m.children ++ ['>']))
    ++ (if m.ancestors.isEmpty then [] else '^' :: '<' :: (joinComma m.ancestors ++ ['>']))

/-- Mirrors the Display instance of `Binarized`. -/
def displayBinarized : Binarized Sym → Sym
  | .markovized m => displayMarkovized m
  | .bare a => a

/-- Characters rejected by the symbol parser of the sibling and ancestor
lists in binarized/node.rs. -/
def listDelim (c : Char) : Bool :=
  c = '|' || c = '^' || c = '<' || c = '>' || c = ','

/-- Characters terminating the leading label, per `is_not` over bar and
caret in binarized/node.rs. -/
def labelDelim (c : Char) : Bool :=
  c = '|' || c = '^'

/-- Semantics of the nom combinator `is_not`: consume the longest
non-empty prefix free of the given characters, fail when it is empty. -/
def isNotRun (bad : Char → Bool) (s : List Char) : Option (List Char × List Char) :=
  let t := s.takeWhile (fun c => ! bad c)
  if t.isEmpty then none else some (t, s.drop t.length)

/-- One element of a sibling or ancestor list: the alternation of a
literal comma tag and a run free of the reserved characters, as in
binarized/node.rs. -/
def listElem (s : List Char) : Option (List Char × List Char) :=
  match s with
  | [] => isNotRun listDelim []
  | c :: rest => if c = ',' then some ([','], rest) else isNotRun listDelim (c :: rest)

/-- Loop of the nom combinator `separated_list0` after its first element:
repeatedly consume a comma separator followed by an element, stopping
before the first failure.  Fuel bounds the iteration count; the wrapper
passes the input length, which suffices because every step consumes at
least one character. -/
def sepItems : Nat → List Char → List (List Char) → (List (List Char) × List Char)
  | 0, s, acc => (acc.reverse, s)
  | fuel + 1, s, acc =>
    match s with
    | [] => (acc.reverse, [])
    | c :: rest =>
      if c = ',' then
        match listElem rest with
        | some (x, rest2) => sepItems fuel rest2 (x :: acc)
        | none => (acc.reverse, s)
      else (acc.reverse, s)

/-- Semantics of `separated_list0` with a comma separator over list
elements, as used for both annotation lists in binarized/node.rs. -/
def sepList0 (s : List Char) : List (List Char) × List Char :=
  match listElem s with
  | none => ([], s)
  | some (x, rest) => sepItems rest.length rest [x]

/-- One optional annotation section: the given marker character, then an
angle-bracketed separated list.  Mirrors `opt(preceded(tag, delimited(...)))`
in binarized/node.rs: when any inner piece fails, nothing is consumed. -/
def sectionAfter (mark : Char) (s : List Char) : Option (List (List Char)) × List Char :=
  match s with
  | c1 :: c2 :: rest =>
    if c1 = mark ∧ c2 = '<' then
      let p := sepList0 rest
      match p.2 with
      | c3 :: rest2 => if c3 = '>' then (some p.1, rest2) else (none, s)
      | [] => (none, s)
    else (none, s)
  | _ => (none, s)

/-- Mirrors `parse_markovized_node` of binarized/node.rs: a label run,
then an optional sibling section, then an optional ancestor section;
missing sections default to empty lists. -/
def parse_markovized_node (s : List Char) : Option (Binarized Sym × List Char) :=
  match isNotRun labelDelim s with
  | none => none
  | some (label, s1) =>
    let sect1 := sectionAfter '|' s1
    let sect2 := sectionAfter '^' sect1.2
    some (.markovized ⟨label, sect1.1.getD [], sect2.1.getD []⟩, sect2.2)

/-- Mirrors `parse_bare_node` of binarized/node.rs: an all-consuming run
free of bar and caret. -/
def parse_bare_node (s : List Char) : Option (Binarized Sym) :=
  match isNotRun labelDelim s with
  | some (t, []) => some (.bare t)
  | _ => none

/-- Whitespace trimming of `str::trim`, applied by `Binarized::from_str`. -/
def trimC (s : List Char) : List Char :=
  ((s.dropWhile Char.isWhitespace).reverse.dropWhile Char.isWhitespace).reverse

/-- Mirrors `Binarized::from_str`: trim, then try the bare alternative
first, then the markovized one, requiring all input consumed; a parse
error is `none`. -/
def Binarized.fromStr (s : Sym) : Option (Binarized Sym) :=
  let s2 := trimC s
  match parse_bare_node s2 with
  | some b => some b
  | none =>
    match parse_markovized_node s2 with
    | some (b, []) => some b
    | _ => none

/-- Mirrors `augment_parents` of binarized/markovize.rs: for vertical
parameter at most one the context is dropped; otherwise the augmenter is
prepended and the queue truncated to one less than the parameter. -/
def augment_parents {α : Type} (parents : List α) (augmenter : α) (v : Nat) : List α :=
  if v = 0 ∨ v = 1 then []
  else (augmenter :: parents).take (v - 1)

/-- Mirrors `Tree::markovize` of binarized/markovize.rs, with fuel for the
non-structural recursion on the synthetic tail node.  The source unwraps
`Binarized::from_str` on every node label; the unreachable parse failure
is modelled by a bare fallback.  The three branches are: preterminal
(all children are leaves), small arity (at most two children), and the
binarizing case introducing a synthetic tail whose label is the rendered
markovized node. -/
def markovizeF : Nat → Tree Sym → Nat → Nat → List Sym → Tree (Binarized Sym)
  | 0, t, _, _, _ => .node (.bare t.root) []
  | fuel + 1, .node root cs, v, h, parents =>
    if cs.all Tree.is_leaf then
      .node (.bare root) (cs.map (fun c => .node (.bare c.root) []))
    else if cs.length ≤ 2 then
      let new_root := (Binarized.fromStr root).getD (.bare root)
      let parents_augmented := augment_parents parents new_root.extract_label v
      .node
        (match new_root with
         | .markovized a => .markovized ⟨a.label, a.children, parents⟩
         | .bare a => .markovized ⟨a, [], parents⟩)
        (cs.map (fun c => markovizeF fuel c v h parents_augmented))
    else
      let augmented_label : MarkovizedNode Sym :=
        ⟨((Binarized.fromStr root).getD (.bare root)).extract_label,
         ((cs.drop 1).take h).map Tree.root, []⟩
      let parents_augmented := augment_parents parents augmented_label.label v
      .node (.markovized ⟨root, [], parents⟩)
        [markovizeF fuel (cs.headD (.node root [])) v h parents_augmented,
         markovizeF fuel (.node (displayMarkovized augmented_label) (cs.drop 1)) v h parents]

/-- `Tree::markovize` with its fuel instantiated at the tree size, which
is sufficient. -/
def Tree.markovize (t : Tree Sym) (v h : Nat) (parents : List Sym) : Tree (Binarized Sym) :=
  markovizeF t.size t v h parents

/-- Mirrors `Tree::debinarize` of binarized/debinarize.rs, with fuel for
the non-structural recursion after collapsing: a leaf keeps its extracted
label; a node whose last child carries a markovized root and exactly two
children is collapsed by splicing that last child away; otherwise the
node keeps its extracted label and recurses into its children. -/
def debinarizeF {α : Type} : Nat → Tree (Binarized α) → Tree α
  | 0, t => .node t.root.extract_label []
  | fuel + 1, .node root cs =>
    match cs.getLast? with
    | none => .node root.extract_label []
    | some last =>
      if last.root.is_markovized && last.children.length == 2 then
        debinarizeF fuel (.node root (cs.dropLast ++ last.children))
      else .node root.extract_label (cs.map (debinarizeF fuel))

/-- `Tree::debinarize` with its fuel instantiated at the tree size. -/
def Tree.debinarize {α : Type} (t : Tree (Binarized α)) : Tree α :=
  debinarizeF t.size t

/-- Modelled from the spec: debinarization as claim C4 words it, where a
node is collapsible exactly when the root of its last child is a
markovized label with non-empty siblings, with no condition on how many
children that last child has.  Kept for comparison with the source
function `debinarizeF`. -/
def specDebinarizeF {α : Type} : Nat → Tree (Binarized α) → Tree α
  | 0, t => .node t.root.extract_label []
  | fuel + 1, .node root cs =>
    match cs.getLast? with
    | none => .node root.extract_label []
    | some last =>
      if last.root.is_markovized then
        specDebinarizeF fuel (.node root (cs.dropLast ++ last.children))
      else .node root.extract_label (cs.map (specDebinarizeF fuel))

/-- The claim-side debinarization with its fuel instantiated at the tree
size. -/
def Tree.specDebinarize {α : Type} (t : Tree (Binarized α)) : Tree α :=
  specDebinarizeF t.size t

/-- Grammar rule, mirroring `Rule` of grammar.rs and grammar/rule.rs. -/
inductive Rule (N T : Type) where
  | lexical (lhs : N) (rhs : T) : Rule N T
  | nonLexical (lhs : N) (rhs : List N) : Rule N T
deriving DecidableEq, Repr

/-- Left-hand side of a rule, as matched out in the normalisation loop of
grammar.rs. -/
def Rule.lhs {N T : Type} : Rule N T → N
  | .lexical l _ => l
  | .nonLexical l _ => l

/-- First-match lookup in an association list, modelling `HashMap::get`. -/
def mapGet {K V : Type} [DecidableEq K] : List (K × V) → K → Option V
  | [], _ => none
  | kv :: tl, k => if kv.1 = k then some kv.2 else mapGet tl k

/-- Insert-or-replace in an association list, modelling `HashMap::insert`. -/
def mapInsert {K V : Type} [DecidableEq K] : List (K × V) → K → V → List (K × V)
  | [], k, v => [(k, v)]
  | kv :: tl, k, v => if kv.1 = k then (k, v) :: tl else kv :: mapInsert tl k v

/-- The rule-to-count map of `GrammarAbsoluteWeight`, modelled as an
association list. -/
abbrev RuleMap (N T : Type) := List (Rule N T × Nat)

/-- Mirrors `GrammarAbsoluteWeight::insert_with_weight`: add the weight
onto the existing count, or insert the rule fresh. -/
def insert_with_weight {N T : Type} [DecidableEq N] [DecidableEq T]
    (m : RuleMap N T) (rule : Rule N T) (weight : Nat) : RuleMap N T :=
  match mapGet m rule with
  | some x => mapInsert m rule (x + weight)
  | none => mapInsert m rule weight

/-- Mirrors `GrammarAbsoluteWeight::absorb`: drain the other map into
this one, rule by rule. -/
def absorb {N T : Type} [DecidableEq N] [DecidableEq T]
    (m other : RuleMap N T) : RuleMap N T :=
  other.foldl (fun acc rw => insert_with_weight acc rw.1 rw.2) m

mutual

/-- Mirrors the conversion from `Tree<A>` to `GrammarAbsoluteWeight<A, A>`
in grammar.rs: a single leaf child emits a lexical rule, a single
non-leaf child a unary non-lexical rule, two or more children one
non-lexical rule over all child roots, no children nothing; then the
maps induced by the children are absorbed in order. -/
def fromTree {α : Type} [DecidableEq α] : Tree α → RuleMap α α
  | .node root cs =>
    let base : RuleMap α α :=
      match cs with
      | [c] =>
        if c.is_leaf then insert_with_weight [] (.lexical root c.root) 1
        else insert_with_weight [] (.nonLexical root [c.root]) 1
      | [] => []
      | _ => insert_with_weight [] (.nonLexical root (cs.map Tree.root)) 1
    fromTreeAbsorb cs base

/-- The child loop of the conversion: absorb each child map in order. -/
def fromTreeAbsorb {α : Type} [DecidableEq α] : List (Tree α) → RuleMap α α → RuleMap α α
  | [], acc => acc
  | c :: tl, acc => fromTreeAbsorb tl (absorb acc (fromTree c))

end

mutual

/-- Preorder rule emission per claim C5 on one tree. -/
def specOccGo {α : Type} : Tree α → List (Rule α α)
  | .node root cs =>
    (match cs with
     | [c] =>
       if c.is_leaf then [.lexical root c.root]
       else [.nonLexical root [c.root]]
     | [] => []
     | _ => [.nonLexical root (cs.map Tree.root)]) ++ specOccL cs

/-- Preorder rule emission over a list of trees. -/
def specOccL {α : Type} : List (Tree α) → List (Rule α α)
  | [] => []
  | c :: tl => specOccGo c ++ specOccL tl

end

/-- Modelled from the spec: the rule occurrences claim C5 describes, one
rule per qualifying node in preorder.  Kept for comparison with the
source-derived `fromTree`. -/
def specRuleOccurrences {α : Type} (t : Tree α) : List (Rule α α) :=
  specOccGo t

/-- Total recorded weight of one rule in a rule map: the sum over all
entries carrying that rule; with unique keys this is the stored count. -/
def wsum {N T : Type} [DecidableEq N] [DecidableEq T] (m : RuleMap N T) (r : Rule N T) : Nat :=
  ((m.filter (fun rw => decide (rw.1 = r))).map (fun rw => rw.2)).sum

/-- Sum of the counts of all rules sharing the given left-hand side,
matching the per-bucket total of the normalisation loop in grammar.rs. -/
def lhsTotal {N T : Type} [DecidableEq N] (rules : RuleMap N T) (a : N) : Nat :=
  ((rules.filter (fun rw => decide (rw.1.lhs = a))).map (fun rw => rw.2)).sum

/-- Mirrors the conversion from `GrammarAbsoluteWeight` to
`GrammarNormalisedWeight` in grammar.rs: rules are grouped by left-hand
side, the counts of each group are summed, and every rule is assigned
the ratio of its count to its group sum.  The floating division is
modelled in Rat. -/
def normalise {N T : Type} [DecidableEq N] (rules : RuleMap N T) : List (Rule N T × Rat) :=
  rules.map (fun rw => (rw.1, (rw.2 : Rat) / (lhsTotal rules rw.1.lhs : Rat)))

/-- Terminal or non-terminal node label, mirroring `NodeType` of tree.rs. -/
inductive NodeType (N T : Type) where
  | terminal (t : T) : NodeType N T
  | nonTerminal (n : N) : NodeType N T
deriving DecidableEq, Repr

/-- Backtrace information, mirroring `BacktraceInfo` of grammar/parse.rs. -/
inductive BacktraceInfo where
  | binary (i j : Nat) : BacktraceInfo
  | chain (i : Nat) : BacktraceInfo
  | term (i : Nat) : BacktraceInfo
deriving DecidableEq, Repr

/-- Chart entry, mirroring the weight and optional backtrace pair of
grammar/parse.rs; the weight `FloatOrd<f64>` is modelled as Rat. -/
abbrev ChartEntry : Type := Rat × Option BacktraceInfo

/-- The default chart entry: weight zero, no backtrace. -/
def chartDefault : ChartEntry := (0, none)

/-- Comparison of rationals as a total ordering, modelling the total
order of `FloatOrd` away from the special float values. -/
def ratCmp (a b : Rat) : Ordering :=
  if a < b then .lt else if a = b then .eq else .gt

/-- The derived Rust ordering on `BacktraceInfo`: variants in declaration
order, fields compared lexicographically. -/
def btCmp : BacktraceInfo → BacktraceInfo → Ordering
  | .binary a b, .binary c d => (compare a c).then (compare b d)
  | .binary _ _, .chain _ => .lt
  | .binary _ _, .term _ => .lt
  | .chain _, .binary _ _ => .gt
  | .chain a, .chain b => compare a b
  | .chain _, .term _ => .lt
  | .term _, .binary _ _ => .gt
  | .term _, .chain _ => .gt
  | .term a, .term b => compare a b

/-- The Rust ordering on options: none below some. -/
def optBtCmp : Option BacktraceInfo → Option BacktraceInfo → Ordering
  | none, none => .eq
  | none, some _ => .lt
  | some _, none => .gt
  | some a, some b => btCmp a b

/-- The derived lexicographic ordering on chart entries. -/
def entryCmp (a b : ChartEntry) : Ordering :=
  (ratCmp a.1 b.1).then (optBtCmp a.2 b.2)

/-- Rust `Ord::max` on chart entries: the second argument wins ties. -/
def entryMax (a b : ChartEntry) : ChartEntry :=
  if entryCmp a b = .gt then a else b

/-- Rust `Iterator::max` over chart entries: the last maximal element,
none on an empty iterator. -/
def iterMax (l : List ChartEntry) : Option ChartEntry :=
  l.foldl (fun acc x =>
    match acc with
    | none => some x
    | some a => some (entryMax a x)) none

/-- Decoder grammar, mirroring `GrammarParse` of grammar/parse.rs.  The
three rule multimaps are modelled as functions from keys to entry lists,
the empty list standing for an absent key; the interning table is the
lookup vector. -/
structure GrammarParse (N T : Type) where
  initial_nonterminal : Nat
  rules_lexical : T → List (Nat × Rat)
  rules_chain : Nat → List (Nat × Rat)
  rules_double : Nat → List (Nat × Nat × Rat)
  lookup : List N

/-- Mirrors `GrammarParse::new`: empty rule tables and the initial
non-terminal interned at id zero, so the lookup vector holds exactly it. -/
def GrammarParse.new {N T : Type} (init : N) : GrammarParse N T :=
  ⟨0, fun _ => [], fun _ => [], fun _ => [], [init]⟩

/-- The slice of one chart cell, as handed out by `Chart::get_cell_mut`. -/
def readCell (chart : List ChartEntry) (start num : Nat) : List ChartEntry :=
  (chart.drop start).take num

/-- Writing one chart cell back in place of its slice. -/
def writeCell (chart : List ChartEntry) (start : Nat) (cell : List ChartEntry) : List ChartEntry :=
  chart.take start ++ cell ++ chart.drop (start + cell.length)

/-- Mirrors `Chart::cell_start_index` of grammar/chart.rs. -/
def cell_start_index (sentence_len num_nonterminals start_pos span : Nat) : Nat :=
  let rows_subtract := sentence_len - span + 1
  let base_cells_subtract := rows_subtract * (rows_subtract + 1) / 2
  let num_base_cells := sentence_len * (sentence_len + 1) / 2
  (num_base_cells - base_cells_subtract + start_pos) * num_nonterminals

/-- Length of the buffer allocated by `Chart::new` of grammar/chart.rs. -/
def chartDataLen (sentence_len num_nonterminals : Nat) : Nat :=
  sentence_len * (sentence_len + 1) / 2 * num_nonterminals

/-- Queue item of the unary closure heap: a chart entry and its
non-terminal position. -/
abbrev QItem : Type := ChartEntry × Nat

/-- Ordering of queue items, matching the derived tuple order used by the
binary heap in grammar/parse.rs. -/
def qCmp (a b : QItem) : Ordering :=
  (entryCmp a.1 b.1).then (compare a.2 b.2)

/-- Remove a maximal element from the queue, modelling `BinaryHeap::pop`;
the item ordering is total, so any two maximal items are equal and the
choice is immaterial. -/
def popMax : List QItem → Option (QItem × List QItem)
  | [] => none
  | x :: tl =>
    match popMax tl with
    | none => some (x, [])
    | some (m, rest) =>
      if qCmp x m = .lt then some (m, x :: rest) else some (x, tl)

/-- The drain loop of `GrammarParse::unary_closure`: pop the heaviest
item; when it improves its cell slot, install it and push the chain
successors.  Fuel bounds the iteration; the loop can run beyond any
fixed bound only for weight cycles of factor at least one, which local
normalisation rules out (spec section 9). -/
def closureGo {N T : Type} (g : GrammarParse N T) :
    Nat → List QItem → List ChartEntry → List ChartEntry
  | 0, _, cell => cell
  | fuel + 1, queue, cell =>
    match popMax queue with
    | none => cell
    | some (item, rest) =>
      if (cell.getD item.2 chartDefault).1 < item.1.1 then
        let cell2 := cell.set item.2 item.1
        let pushes := (g.rules_chain item.2).map
          (fun aw => (((aw.2 * item.1.1 : Rat), some (BacktraceInfo.chain item.2)), aw.1))
        closureGo g fuel (rest ++ pushes) cell2
      else closureGo g fuel rest cell

/-- Mirrors `GrammarParse::unary_closure`: drain the non-zero entries of
the cell into the heap, zero the cell, then run the relaxation loop. -/
def unary_closure {N T : Type} (g : GrammarParse N T) (c : List ChartEntry) : List ChartEntry :=
  let queue := (c.enum.filter (fun iw => decide (iw.2.1 ≠ 0))).map (fun iw => (iw.2, iw.1))
  let zeroed := c.map (fun _ => chartDefault)
  closureGo g ((c.length + 1) * (queue.length + 1)) queue zeroed

/-- The maximal entry of a cell, as `c.iter().max().unwrap()` obtains it;
the panic on an empty cell is modelled by the default entry. -/
def cell_max (c : List ChartEntry) : ChartEntry :=
  (iterMax c).getD chartDefault

/-- Mirrors `GrammarParse::prune_threshold`: zero every entry whose
weight lies strictly below the cell maximum times the threshold. -/
def prune_threshold (c : List ChartEntry) (threshold : Rat) : List ChartEntry :=
  let cutoff := (cell_max c).1 * threshold
  c.map (fun e => if e.1 < cutoff then chartDefault else e)

/-- Ascending insertion into a sorted list of chart entries. -/
def insertAsc (e : ChartEntry) : List ChartEntry → List ChartEntry
  | [] => [e]
  | x :: tl => if entryCmp e x = .gt then x :: insertAsc e tl else e :: x :: tl

/-- Ascending sort of chart entries; together with the reversal below it
models `sort_unstable` plus `reverse`, and since the entry ordering is
total, equal entries are identical and unstability is immaterial. -/
def sortAsc (l : List ChartEntry) : List ChartEntry :=
  l.foldr insertAsc []

/-- Mirrors `GrammarParse::prune_fixed_size`: zero every entry strictly
below the entry at the given descending rank (the last entry when the
rank exceeds the cell size). -/
def prune_fixed_size (c : List ChartEntry) (n : Nat) : List ChartEntry :=
  let num_nt := c.length
  let sorted := (sortAsc c).reverse
  let n_best :=
    if n > num_nt then sorted.getLast?.getD chartDefault
    else sorted.getD (n - 1) chartDefault
  c.map (fun e => if entryCmp e n_best = .lt then chartDefault else e)

/-- Mirrors `CykMode` of grammar/parse.rs. -/
inductive CykMode where
  | base : CykMode
  | pruneThreshold (t : Rat) : CykMode
  | pruneFixedSize (n : Nat) : CykMode

/-- Mirrors `CykMode::is_prune`. -/
def CykMode.is_prune : CykMode → Bool
  | .base => false
  | .pruneThreshold _ => true
  | .pruneFixedSize _ => true

/-- The per-mode pruning dispatch appearing in `chart_setup` and `cyk`. -/
def applyMode (mode : CykMode) (cell : List ChartEntry) : List ChartEntry :=
  match mode with
  | .base => cell
  | .pruneThreshold t => prune_threshold cell t
  | .pruneFixedSize n => prune_fixed_size cell n

/-- Mirrors `GrammarParse::chart_setup`: seed every span-one cell from the
lexical rules of its word, then run unary closure and pruning on it. -/
def chart_setup {N T : Type} (g : GrammarParse N T) (sentence : List T)
    (chart : List ChartEntry) (mode : CykMode) : List ChartEntry :=
  let num_nt := g.lookup.length
  sentence.enum.foldl (fun ch iw =>
    let seeded := (g.rules_lexical iw.2).foldl
      (fun ch2 ntw => ch2.set (iw.1 * num_nt + ntw.1) (ntw.2, some (BacktraceInfo.term iw.1))) ch
    writeCell seeded (iw.1 * num_nt)
      (applyMode mode (unary_closure g (readCell seeded (iw.1 * num_nt) num_nt)))) chart

/-- Mirrors `GrammarParse::construct_best_tree`, with fuel for the
recursion through backtraces; out-of-range indexing (a Rust panic) is
modelled by propagating none. -/
def construct_best_tree {N T : Type} :
    Nat → List ChartEntry → Nat → List T → List N → Option (Tree (NodeType N T))
  | 0, _, _, _, _ => none
  | fuel + 1, c, c_idx, sentence, lookup =>
    let num_nt := lookup.length
    match (c.getD c_idx chartDefault).2 with
    | none => none
    | some (.term t) =>
      match lookup.get? (c_idx % num_nt), sentence.get? t with
      | some n, some w => some (.node (.nonTerminal n) [.node (.terminal w) []])
      | _, _ => none
    | some (.chain i) =>
      let nt := c_idx % num_nt
      match lookup.get? nt with
      | none => none
      | some n =>
        (construct_best_tree fuel c (c_idx - nt + i) sentence lookup).map
          (fun tree => .node (.nonTerminal n) [tree])
    | some (.binary i j) =>
      match construct_best_tree fuel c i sentence lookup,
            construct_best_tree fuel c j sentence lookup with
      | some ti, some tj =>
        match lookup.get? (c_idx % num_nt) with
        | some n => some (.node (.nonTerminal n) [ti, tj])
        | none => none
      | _, _ => none

/-- Mirrors `GrammarParse::cyk`: allocate the dense chart, set up the
span-one cells, fill longer spans over all non-terminals and split
points through binary rules with unary closure and pruning per cell, and
reconstruct the tree from the root cell of the initial non-terminal. -/
def cyk {N T : Type} (g : GrammarParse N T) (sentence : List T) (mode : CykMode) :
    Option (Tree (NodeType N T)) :=
  let num_nt := g.lookup.length
  let s_len := sentence.length
  let chart0 : List ChartEntry := List.replicate (chartDataLen s_len num_nt) chartDefault
  let chart1 := chart_setup g sentence chart0 mode
  let chart2 := (List.range' 2 (s_len - 1)).foldl (fun ch r =>
    (List.range (s_len - r + 1)).foldl (fun ch i =>
      let j := i + r
      let i_j := cell_start_index s_len num_nt i r
      let ch2 := (List.range num_nt).foldl (fun ch a =>
        (List.range' (i + 1) (r - 1)).foldl (fun ch m =>
          let i_m := cell_start_index s_len num_nt i (m - i)
          let m_j := cell_start_index s_len num_nt m (j - m)
          match g.rules_double a with
          | [] => ch
          | rules =>
            let cands := (rules.filter (fun bcw =>
              if mode.is_prune then
                decide (0 < (ch.getD (i_m + bcw.1) chartDefault).1 ∧
                        0 < (ch.getD (m_j + bcw.2.1) chartDefault).1)
              else true)).map (fun bcw =>
                (((bcw.2.2 * (ch.getD (i_m + bcw.1) chartDefault).1 *
                   (ch.getD (m_j + bcw.2.1) chartDefault).1 : Rat)),
                 some (BacktraceInfo.binary (i_m + bcw.1) (m_j + bcw.2.1))))
            ch.set (i_j + a)
              (entryMax (ch.getD (i_j + a) chartDefault) ((iterMax cands).getD chartDefault)))
          ch) ch
      writeCell ch2 i_j (applyMode mode (unary_closure g (readCell ch2 i_j num_nt)))) ch) chart1
  let root_cell := cell_start_index s_len num_nt 0 s_len + g.initial_nonterminal
  construct_best_tree (chart2.length + 1) chart2 root_cell sentence g.lookup

/-- The unknown token of unk.rs. -/
def unkSym : Sym := ['U', 'N', 'K']

/-- The position-threaded loop of `Sentence::unkify` of unk.rs:
out-of-vocabulary words are recorded with their position and replaced by
the unknown token, in-vocabulary words pass through. -/
def unkifyGo (contains : Sym → Bool) : Nat → List Sym → List Sym × List (Nat × Sym)
  | _, [] => ([], [])
  | i, w :: tl =>
    let p := unkifyGo contains (i + 1) tl
    if contains w then (w :: p.1, p.2) else (unkSym :: p.1, (i, w) :: p.2)

/-- Mirrors `Sentence::unkify`: the mutated sentence together with the
recorded word map. -/
def Sentence.unkify (s : List Sym) (contains : Sym → Bool) : List Sym × List (Nat × Sym) :=
  unkifyGo contains 0 s

/-- The Option wrapper of `Sentence::unkify`: none when nothing was
replaced. -/
def Sentence.unkifyOpt (s : List Sym) (contains : Sym → Bool) :
    List Sym × Option (List (Nat × Sym)) :=
  let p := Sentence.unkify s contains
  (p.1, if p.2.isEmpty then none else some p.2)

mutual

/-- Replace the leaf labels of a tree, in order, by the entries of the
given list (keeping a leaf when the list is exhausted); returns the
rebuilt tree and the unconsumed rest.  This models writing through the
in-order mutable leaf references of `Tree::leaves_mut`. -/
def rebuildT {α : Type} : Tree α → List α → Tree α × List α
  | .node r cs, l =>
    if cs.isEmpty then
      match l with
      | [] => (.node r [], [])
      | x :: rest => (.node x [], rest)
    else
      let p := rebuildL cs l
      (.node r p.1, p.2)

/-- Leaf replacement across a list of trees, threading the value list. -/
def rebuildL {α : Type} : List (Tree α) → List α → List (Tree α) × List α
  | [], l => ([], l)
  | c :: tl, l =>
    let q := rebuildT c l
    let p := rebuildL tl q.2
    (q.1 :: p.1, p.2)

end

/-- Mirrors `Tree::deunkify` of unk.rs: the in-order leaves at the
recorded positions are overwritten with terminal nodes of the recorded
words.  An out-of-range position, a Rust panic, is modelled by the
no-op of `List.set`; the theorems below keep all positions in range. -/
def Tree.deunkify {N T : Type} (t : Tree (NodeType N T)) (word_map : List (Nat × T)) :
    Tree (NodeType N T) :=
  let newLeaves := word_map.foldl (fun l iw => l.set iw.1 (NodeType.terminal iw.2)) t.leavesVals
  (rebuildT t newLeaves).1

/-- A symbol is clean when it is non-empty and free of the reserved
markovization characters and of whitespace. -/
def cleanSym (s : Sym) : Prop :=
  s ≠ [] ∧ ∀ c ∈ s, ¬ listDelim c ∧ ¬ c.isWhitespace

/-- A binarized label avoiding the ambiguity of the textual form: a
markovized label must carry at least one annotation, since one with both
lists empty renders exactly like a bare label. -/
def unambiguousLabel {α : Type} : Binarized α → Prop
  | .markovized m => m.children ≠ [] ∨ m.ancestors ≠ []
  | .bare _ => True

/-- Cleanliness of all symbols of a binarized label. -/
def cleanLabel : Binarized Sym → Prop
  | .markovized m =>
    cleanSym m.label ∧ (∀ s ∈ m.children, cleanSym s) ∧ ∀ s ∈ m.ancestors, cleanSym s
  | .bare a => cleanSym a

mutual

/-- Every label of the tree is a clean symbol. -/
def cleanTree : Tree Sym → Prop
  | .node r cs => cleanSym r ∧ cleanTreeL cs

/-- Cleanliness over a list of trees. -/
def cleanTreeL : List (Tree Sym) → Prop
  | [] => True
  | c :: tl => cleanTree c ∧ cleanTreeL tl

end

mutual

/-- Every node has children that are all leaves or all internal; words of
a constituent tree occur only under preterminals. -/
def layered {α : Type} : Tree α → Prop
  | .node _ cs => (cs.all Tree.is_leaf = true ∨ cs.all (fun c => ! c.is_leaf) = true) ∧ layeredL cs

/-- Layering over a list of trees. -/
def layeredL {α : Type} : List (Tree α) → Prop
  | [] => True
  | c :: tl => layered c ∧ layeredL tl

end

mutual

/-- Every node of the tree has at most three children. -/
def smallArity {α : Type} : Tree α → Prop
  | .node _ cs => cs.length ≤ 3 ∧ smallArityL cs

/-- Arity bound over a list of trees. -/
def smallArityL {α : Type} : List (Tree α) → Prop
  | [] => True
  | c :: tl => smallArity c ∧ smallArityL tl

end

end Pcfg

namespace Pcfg

theorem Tree.size_node {α : Type} (r : α) (cs : List (Tree α)) :
    (Tree.node r cs).size = 1 + (cs.map Tree.size).sum := by
  rw [Tree.size]
  congr 1
  induction cs with
  | nil => rfl
  | cons c tl ih => rw [sizeL, List.map_cons, List.sum_cons, ih]

theorem Tree.size_pos {α : Type} (t : Tree α) : 0 < t.size := by
  cases t with
  | node r cs => rw [Tree.size_node] ; omega

theorem Tree.size_lt_of_mem {α : Type} {c : Tree α} {r : α} {cs : List (Tree α)}
    (hc : c ∈ cs) : c.size < (Tree.node r cs).size := by
  rw [Tree.size_node]
  have h := List.single_le_sum (fun (x : Nat) _ => Nat.zero_le x) c.size
    (List.mem_map_of_mem Tree.size hc)
  omega

theorem sizeL_eq_sum {α : Type} (cs : List (Tree α)) :
    sizeL cs = (cs.map Tree.size).sum := by
  induction cs with
  | nil => rfl
  | cons c tl ih => rw [sizeL, List.map_cons, List.sum_cons, ih]

theorem triangle_succ (m : Nat) : (m + 1) * (m + 1 + 1) / 2 = m * (m + 1) / 2 + (m + 1) := by
  have h : (m + 1) * (m + 1 + 1) = m * (m + 1) + 2 * (m + 1) := by ring
  omega

theorem triangle_mono {a b : Nat} (h : a ≤ b) : a * (a + 1) / 2 ≤ b * (b + 1) / 2 :=
  Nat.div_le_div_right (Nat.mul_le_mul h (by omega))

theorem cell_base_lt {n p s : Nat} (hp : 1 ≤ p) (hs : s + p ≤ n) :
    n * (n + 1) / 2 - (n - p + 1) * ((n - p + 1) + 1) / 2 + s + 1 ≤ n * (n + 1) / 2 := by
  have f1 := triangle_succ (n - p)
  have f2 : (n - p + 1) * ((n - p + 1) + 1) / 2 ≤ n * (n + 1) / 2 :=
    triangle_mono (by omega)
  omega

theorem cell_base_mono {n p q : Nat} (hp : 1 ≤ p) (hpq : p < q) (hq : q ≤ n) :
    ∀ s, s + p ≤ n →
      n * (n + 1) / 2 - (n - p + 1) * ((n - p + 1) + 1) / 2 + s
        < n * (n + 1) / 2 - (n - q + 1) * ((n - q + 1) + 1) / 2 := by
  intro s hs
  have f1 := triangle_succ (n - p)
  have f2 : (n - p + 1) * ((n - p + 1) + 1) / 2 ≤ n * (n + 1) / 2 :=
    triangle_mono (by omega)
  have f3 : (n - q + 1) * ((n - q + 1) + 1) / 2 ≤ (n - p) * ((n - p) + 1) / 2 :=
    triangle_mono (by omega)
  omega

/-- C10: for a chart over a sentence of length n and k non-terminals, the
flat addressing neither aliases nor escapes: every valid cell start is a
multiple of k, distinct valid (start, span) pairs receive distinct cell
starts, and every flat index with a non-terminal offset below k stays
strictly inside the allocated buffer of length n(n+1)/2 times k. -/
theorem C10_chart_flat_addressing (n k : Nat) (hn : 1 ≤ n) (hk : 1 ≤ k) :
    (∀ start span, 1 ≤ span → start + span ≤ n →
      k ∣ cell_start_index n k start span) ∧
    (∀ s1 p1 s2 p2, 1 ≤ p1 → s1 + p1 ≤ n → 1 ≤ p2 → s2 + p2 ≤ n →
      cell_start_index n k s1 p1 = cell_start_index n k s2 p2 → s1 = s2 ∧ p1 = p2) ∧
    (∀ start span nt, 1 ≤ span → start + span ≤ n → nt < k →
      cell_start_index n k start span + nt < chartDataLen n k) := by
  refine ⟨?_, ?_, ?_⟩
  · intro start span _ _
    exact dvd_mul_left k _
  · intro s1 p1 s2 p2 hp1 hs1 hp2 hs2 heq
    have heq2 : n * (n + 1) / 2 - (n - p1 + 1) * ((n - p1 + 1) + 1) / 2 + s1
        = n * (n + 1) / 2 - (n - p2 + 1) * ((n - p2 + 1) + 1) / 2 + s2 := by
      have := Nat.eq_of_mul_eq_mul_right (by omega : 0 < k) heq
      simpa [cell_start_index] using this
    rcases Nat.lt_trichotomy p1 p2 with hlt | heqp | hgt
    · have := cell_base_mono hp1 hlt (by omega) s1 hs1
      omega
    · subst heqp
      constructor
      · omega
      · rfl
    · have := cell_base_mono hp2 hgt (by omega) s2 hs2
      omega
  · intro start span nt hsp hss hnt
    have hb := cell_base_lt hsp hss
    show (n * (n + 1) / 2 - (n - span + 1) * ((n - span + 1) + 1) / 2 + start) * k + nt
      < n * (n + 1) / 2 * k
    have h1 : (n * (n + 1) / 2 - (n - span + 1) * ((n - span + 1) + 1) / 2 + start + 1) * k
        = (n * (n + 1) / 2 - (n - span + 1) * ((n - span + 1) + 1) / 2 + start) * k + k := by
      ring
    have h2 : (n * (n + 1) / 2 - (n - span + 1) * ((n - span + 1) + 1) / 2 + start + 1) * k
        ≤ n * (n + 1) / 2 * k := Nat.mul_le_mul_right k (by omega)
    omega

/-- Witness for C10 at a sentence of length three with two non-terminals:
the cell of start one and span two has an even start index, and its last
entry stays inside the buffer. -/
theorem C10_chart_flat_addressing_witness :
    (1 : Nat) ≤ 3 ∧ (1 : Nat) ≤ 2 ∧
    2 ∣ cell_start_index 3 2 1 2 ∧
    cell_start_index 3 2 1 2 + 1 < chartDataLen 3 2 :=
  ⟨by decide, by decide,
   (C10_chart_flat_addressing 3 2 (by decide) (by decide)).1 1 2 (by decide) (by decide),
   (C10_chart_flat_addressing 3 2 (by decide) (by decide)).2.2 1 2 1 (by decide) (by decide)
     (by decide)⟩

theorem weight_le_of_cmp_ne_gt {a b : ChartEntry} (h : entryCmp a b ≠ .gt) : a.1 ≤ b.1 := by
  by_contra hlt
  push_neg at hlt
  apply h
  simp only [entryCmp, ratCmp]
  rw [if_neg (not_lt.mpr hlt.le), if_neg hlt.ne']
  rfl

theorem weight_ge_of_cmp_gt {a b : ChartEntry} (h : entryCmp a b = .gt) : b.1 ≤ a.1 := by
  by_contra hc
  push_neg at hc
  rw [entryCmp, ratCmp, if_pos hc] at h
  rw [show Ordering.lt.then (optBtCmp a.2 b.2) = Ordering.lt from rfl] at h
  exact absurd h (by decide)

theorem entryMax_cases (a x : ChartEntry) : entryMax a x = a ∨ entryMax a x = x := by
  unfold entryMax
  split
  · exact Or.inl rfl
  · exact Or.inr rfl

theorem le_entryMax_left (a x : ChartEntry) : a.1 ≤ (entryMax a x).1 := by
  unfold entryMax
  split
  · exact le_refl _
  · next h => exact weight_le_of_cmp_ne_gt h

theorem le_entryMax_right (a x : ChartEntry) : x.1 ≤ (entryMax a x).1 := by
  unfold entryMax
  split
  · next h => exact weight_ge_of_cmp_gt h
  · exact le_refl _

theorem iterMax_go_spec (l : List ChartEntry) : ∀ a : ChartEntry,
    ∃ e, l.foldl (fun acc x =>
      match acc with
      | none => some x
      | some a => some (entryMax a x)) (some a) = some e ∧
      (e = a ∨ e ∈ l) ∧ a.1 ≤ e.1 ∧ ∀ x ∈ l, x.1 ≤ e.1 := by
  induction l with
  | nil =>
    intro a
    exact ⟨a, rfl, Or.inl rfl, le_refl _, by simp⟩
  | cons x tl ih =>
    intro a
    obtain ⟨e, h1, h2, h3, h4⟩ := ih (entryMax a x)
    refine ⟨e, h1, ?_, le_trans (le_entryMax_left a x) h3, ?_⟩
    · rcases h2 with h | h
      · rcases entryMax_cases a x with hm | hm
        · exact Or.inl (h.trans hm)
        · exact Or.inr (by rw [h, hm] ; exact List.mem_cons_self x tl)
      · exact Or.inr (List.mem_cons_of_mem x h)
    · intro y hy
      rcases List.mem_cons.mp hy with rfl | hmem
      · exact le_trans (le_entryMax_right a y) h3
      · exact h4 y hmem

theorem cell_max_spec (c : List ChartEntry) (hne : c ≠ []) :
    cell_max c ∈ c ∧ ∀ x ∈ c, x.1 ≤ (cell_max c).1 := by
  match c, hne with
  | a :: tl, _ =>
    obtain ⟨e, h1, h2, h3, h4⟩ := iterMax_go_spec tl a
    have hmax : iterMax (a :: tl) = some e := h1
    have hcm : cell_max (a :: tl) = e := by rw [cell_max, hmax] ; rfl
    rw [hcm]
    constructor
    · rcases h2 with rfl | h
      · exact List.mem_cons_self _ _
      · exact List.mem_cons_of_mem _ h
    · intro x hx
      rcases List.mem_cons.mp hx with rfl | hmem
      · exact h3
      · exact h4 x hmem

/-- C7: on a non-empty chart cell of non-negative weights, pruning with
threshold zero changes nothing, and pruning with threshold one keeps
exactly the entries of maximal weight (the argmax, which is attained)
while zeroing every other entry. -/
theorem C7_prune_threshold_boundary (c : List ChartEntry) (hne : c ≠ [])
    (hnn : ∀ e ∈ c, 0 ≤ e.1) :
    prune_threshold c 0 = c ∧
    (cell_max c ∈ c ∧ ∀ e ∈ c, e.1 ≤ (cell_max c).1) ∧
    prune_threshold c 1 = c.map (fun e => if e.1 < (cell_max c).1 then chartDefault else e) := by
  obtain ⟨hmem, hmax⟩ := cell_max_spec c hne
  refine ⟨?_, ⟨hmem, hmax⟩, ?_⟩
  · unfold prune_threshold
    simp only [mul_zero]
    have : c.map (fun e => if e.1 < 0 then chartDefault else e) = c.map id := by
      apply List.map_congr_left
      intro e he
      rw [if_neg (not_lt.mpr (hnn e he))]
      rfl
    rw [this, List.map_id]
  · unfold prune_threshold
    simp only [mul_one]

/-- Witness for C7 on the concrete cell with weights zero, two and one:
threshold zero is a no-op and threshold one keeps only the two. -/
theorem C7_prune_threshold_boundary_witness :
    (([(0, none), (2, some (BacktraceInfo.term 0)), (1, none)] : List ChartEntry) ≠ []) ∧
    prune_threshold [(0, none), (2, some (BacktraceInfo.term 0)), (1, none)] 0
      = [(0, none), (2, some (BacktraceInfo.term 0)), (1, none)] ∧
    prune_threshold [(0, none), (2, some (BacktraceInfo.term 0)), (1, none)] 1
      = ([(0, none), (2, some (BacktraceInfo.term 0)), (1, none)] : List ChartEntry).map
          (fun e => if e.1 < (cell_max [(0, none), (2, some (BacktraceInfo.term 0)), (1, none)]).1
            then chartDefault else e) :=
  ⟨by decide,
   (C7_prune_threshold_boundary _ (by decide) (by decide)).1,
   (C7_prune_threshold_boundary _ (by decide) (by decide)).2.2⟩


theorem sum_map_div (l : List Rat) (s : Rat) : (l.map (fun q => q / s)).sum = l.sum / s := by
  induction l with
  | nil => simp
  | cons q tl ih => rw [List.map_cons, List.sum_cons, List.sum_cons, ih, add_div]

theorem normalise_filter_eq {N T : Type} [DecidableEq N] [DecidableEq T]
    (rules : RuleMap N T) (A : N) :
    ∀ l : RuleMap N T,
      ((l.map (fun rw => (rw.1, (rw.2 : Rat) / (lhsTotal rules rw.1.lhs : Rat)))).filter
          (fun rw => decide (rw.1.lhs = A))).map (fun rw => rw.2)
        = (l.filter (fun rw => decide (rw.1.lhs = A))).map
            (fun rw => (rw.2 : Rat) / (lhsTotal rules A : Rat)) := by
  intro l
  induction l with
  | nil => rfl
  | cons rw tl ih =>
    by_cases h : rw.1.lhs = A
    · simp [List.filter_cons, h, ih]
    · simp [List.filter_cons, h, ih]

/-- C2: normalisation of a positive rule count collection assigns every
rule its count over the total count of its left-hand side group, hence
for every non-terminal appearing as a left-hand side the weights of its
rules sum to exactly one in rational arithmetic, and the normalised
grammar lists exactly the observed rules. -/
theorem C2_normalisation {N T : Type} [DecidableEq N] [DecidableEq T]
    (rules : RuleMap N T)
    (hpos : ∀ rw ∈ rules, 1 ≤ rw.2)
    (A : N) (hA : A ∈ rules.map (fun rw => rw.1.lhs)) :
    (((normalise rules).filter (fun rw => decide (rw.1.lhs = A))).map (fun rw => rw.2)).sum = 1 ∧
    (normalise rules).map Prod.fst = rules.map Prod.fst := by
  constructor
  · have hfil := normalise_filter_eq rules A rules
    rw [normalise, hfil]
    have hcast : (rules.filter (fun rw => decide (rw.1.lhs = A))).map
        (fun rw => (rw.2 : Rat) / (lhsTotal rules A : Rat))
        = ((rules.filter (fun rw => decide (rw.1.lhs = A))).map
            (fun rw => (rw.2 : Rat))).map (fun q => q / (lhsTotal rules A : Rat)) := by
      rw [List.map_map]
      rfl
    rw [hcast, sum_map_div]
    have hsum : ((rules.filter (fun rw => decide (rw.1.lhs = A))).map
        (fun rw => (rw.2 : Rat))).sum = (lhsTotal rules A : Rat) := by
      rw [lhsTotal]
      push_cast
      rw [List.map_map]
      rfl
    rw [hsum]
    have hpos2 : 0 < lhsTotal rules A := by
      obtain ⟨rw, hrw, hlhs⟩ := List.mem_map.mp hA
      have hmem : rw ∈ rules.filter (fun rw => decide (rw.1.lhs = A)) :=
        List.mem_filter.mpr ⟨hrw, by simp [hlhs]⟩
      have hm2 : rw.2 ∈ (rules.filter (fun rw => decide (rw.1.lhs = A))).map (fun rw => rw.2) :=
        List.mem_map_of_mem _ hmem
      have h3 := List.single_le_sum (fun (x : Nat) _ => Nat.zero_le x) rw.2 hm2
      have h4 := hpos rw hrw
      unfold lhsTotal
      omega
    have hne : (lhsTotal rules A : Rat) ≠ 0 := by
      exact_mod_cast Nat.pos_iff_ne_zero.mp hpos2
    exact div_self hne
  · rw [normalise, List.map_map]
    apply List.map_congr_left
    intro rw _
    rfl

/-- Witness for C2 on the count set of the repo normalisation test: two
rules with left-hand side NP of one count each and one rule with
left-hand side D; the NP weights sum to one and the rules persist. -/
theorem C2_normalisation_witness :
    (∀ rw ∈ ([(Rule.nonLexical "NP" ["NP", "D"], 1), (Rule.lexical "NP" "the", 1),
        (Rule.lexical "D" "the", 1)] : RuleMap String String), 1 ≤ rw.2) ∧
    "NP" ∈ ([(Rule.nonLexical "NP" ["NP", "D"], 1), (Rule.lexical "NP" "the", 1),
        (Rule.lexical "D" "the", 1)] : RuleMap String String).map (fun rw => rw.1.lhs) ∧
    (((normalise [(Rule.nonLexical "NP" ["NP", "D"], 1), (Rule.lexical "NP" "the", 1),
        (Rule.lexical "D" "the", 1)]).filter
          (fun rw => decide (rw.1.lhs = "NP"))).map (fun rw => rw.2)).sum = 1 :=
  ⟨by decide, by decide,
   (C2_normalisation [(Rule.nonLexical "NP" ["NP", "D"], 1), (Rule.lexical "NP" "the", 1),
      (Rule.lexical "D" "the", 1)] (by decide) "NP" (by decide)).1⟩

theorem labelDelim_false {c : Char} (h : listDelim c = false) : labelDelim c = false := by
  simp only [listDelim, Bool.or_eq_false_iff, decide_eq_false_iff_not] at h
  simp only [labelDelim, Bool.or_eq_false_iff, decide_eq_false_iff_not]
  tauto

theorem cleanSym_not_listDelim {s : Sym} (h : cleanSym s) : ∀ c ∈ s, listDelim c = false := by
  intro c hc
  have h2 := (h.2 c hc).1
  simpa using h2

theorem takeWhile_append_all {p : Char → Bool} :
    ∀ (l1 l2 : List Char), (∀ c ∈ l1, p c = true) →
      (l2 = [] ∨ ∃ c tl, l2 = c :: tl ∧ p c = false) →
      (l1 ++ l2).takeWhile p = l1 := by
  intro l1
  induction l1 with
  | nil =>
    intro l2 _ h2
    rcases h2 with rfl | ⟨c, tl, rfl, hc⟩
    · rfl
    · simp [List.takeWhile_cons, hc]
  | cons a l1 ih =>
    intro l2 h1 h2
    have ha : p a = true := h1 a (List.mem_cons_self _ _)
    simp only [List.cons_append, List.takeWhile_cons, ha, if_true]
    rw [ih l2 (fun c hc => h1 c (List.mem_cons_of_mem _ hc)) h2]

theorem isNotRun_run {bad : Char → Bool} {s rest : List Char}
    (hs : s ≠ []) (hclean : ∀ c ∈ s, bad c = false)
    (hrest : rest = [] ∨ ∃ c tl, rest = c :: tl ∧ bad c = true) :
    isNotRun bad (s ++ rest) = some (s, rest) := by
  have htake : (s ++ rest).takeWhile (fun c => ! bad c) = s := by
    apply takeWhile_append_all
    · intro c hc
      simp [hclean c hc]
    · rcases hrest with rfl | ⟨c, tl, rfl, hc⟩
      · exact Or.inl rfl
      · exact Or.inr ⟨c, tl, rfl, by simp [hc]⟩
  unfold isNotRun
  simp only [htake]
  rw [if_neg (by simpa [List.isEmpty_iff] using hs)]
  rw [List.drop_left]

theorem listElem_run {x rest : List Char}
    (hx : x ≠ []) (hclean : ∀ c ∈ x, listDelim c = false)
    (hrest : rest = [] ∨ ∃ c tl, rest = c :: tl ∧ listDelim c = true) :
    listElem (x ++ rest) = some (x, rest) := by
  match x, hx with
  | a :: x2, _ =>
    have ha : listDelim a = false := hclean a (List.mem_cons_self _ _)
    have hac : ¬ a = ',' := by
      intro hc
      rw [hc] at ha
      exact absurd ha (by decide)
    have hstep : listElem (a :: x2 ++ rest)
        = if a = ',' then some ([','], x2 ++ rest) else isNotRun listDelim (a :: (x2 ++ rest)) :=
      rfl
    rw [hstep, if_neg hac]
    show isNotRun listDelim ((a :: x2) ++ rest) = some (a :: x2, rest)
    exact @isNotRun_run listDelim (a :: x2) rest (by simp) hclean hrest

theorem sepItems_run (r : List Char) :
    ∀ (tl : List Sym) (acc : List Sym) (fuel : Nat),
      (∀ x ∈ tl, cleanSym x) →
      (tl.foldr (fun x acc2 => ',' :: (x ++ acc2)) ('>' :: r)).length ≤ fuel →
      sepItems fuel (tl.foldr (fun x acc2 => ',' :: (x ++ acc2)) ('>' :: r)) acc
        = (acc.reverse ++ tl, '>' :: r) := by
  intro tl
  induction tl with
  | nil =>
    intro acc fuel _ hf
    simp only [List.foldr_nil] at hf ⊢
    cases fuel with
    | zero => simp at hf
    | succ f =>
      have hstep : sepItems (f + 1) ('>' :: r) acc
          = if ('>' : Char) = ',' then
              (match listElem r with
               | some (x, rest2) => sepItems f rest2 (x :: acc)
               | none => (acc.reverse, '>' :: r))
            else (acc.reverse, '>' :: r) := rfl
      rw [hstep, if_neg (by decide)]
      simp
  | cons x tl ih =>
    intro acc fuel hclean hf
    simp only [List.foldr_cons] at hf ⊢
    cases fuel with
    | zero => simp at hf
    | succ f =>
      have hx := hclean x (List.mem_cons_self _ _)
      have helem : listElem (x ++ tl.foldr (fun x acc2 => ',' :: (x ++ acc2)) ('>' :: r))
          = some (x, tl.foldr (fun x acc2 => ',' :: (x ++ acc2)) ('>' :: r)) := by
        apply listElem_run hx.1 (cleanSym_not_listDelim hx)
        cases tl with
        | nil => exact Or.inr ⟨'>', r, rfl, by decide⟩
        | cons y tl2 => exact Or.inr ⟨',', _, rfl, by decide⟩
      have hstep : sepItems (f + 1) (',' :: (x ++ tl.foldr (fun x acc2 => ',' :: (x ++ acc2)) ('>' :: r))) acc
          = match listElem (x ++ tl.foldr (fun x acc2 => ',' :: (x ++ acc2)) ('>' :: r)) with
            | some (y, rest2) => sepItems f rest2 (y :: acc)
            | none => (acc.reverse, ',' :: (x ++ tl.foldr (fun x acc2 => ',' :: (x ++ acc2)) ('>' :: r))) := by
        have h0 : sepItems (f + 1) (',' :: (x ++ tl.foldr (fun x acc2 => ',' :: (x ++ acc2)) ('>' :: r))) acc
            = if (',' : Char) = ',' then
                (match listElem (x ++ tl.foldr (fun x acc2 => ',' :: (x ++ acc2)) ('>' :: r)) with
                 | some (y, rest2) => sepItems f rest2 (y :: acc)
                 | none => (acc.reverse, ',' :: (x ++ tl.foldr (fun x acc2 => ',' :: (x ++ acc2)) ('>' :: r))))
              else (acc.reverse, ',' :: (x ++ tl.foldr (fun x acc2 => ',' :: (x ++ acc2)) ('>' :: r))) := rfl
        rw [h0, if_pos rfl]
      rw [hstep, helem]
      have hlen : (tl.foldr (fun x acc2 => ',' :: (x ++ acc2)) ('>' :: r)).length ≤ f := by
        simp only [List.length_cons, List.length_append] at hf
        omega
      show sepItems f (tl.foldr (fun x acc2 => ',' :: (x ++ acc2)) ('>' :: r)) (x :: acc)
        = (acc.reverse ++ x :: tl, '>' :: r)
      rw [ih (x :: acc) f (fun y hy => hclean y (List.mem_cons_of_mem _ hy)) hlen]
      simp

theorem joinComma_foldr (r : List Char) :
    ∀ (tl : List Sym) (s0 : Sym),
      joinComma (s0 :: tl) ++ r = s0 ++ tl.foldr (fun x acc2 => ',' :: (x ++ acc2)) r := by
  intro tl
  induction tl with
  | nil =>
    intro s0
    simp [joinComma]
  | cons s1 tl ih =>
    intro s0
    show (s0 ++ ',' :: joinComma (s1 :: tl)) ++ r = _
    rw [List.append_assoc, List.cons_append, ih s1]
    rfl

theorem sepList0_run {sibs : List Sym} {r : List Char}
    (hne : sibs ≠ []) (hclean : ∀ x ∈ sibs, cleanSym x) :
    sepList0 (joinComma sibs ++ '>' :: r) = (sibs, '>' :: r) := by
  match sibs, hne with
  | s0 :: tl, _ =>
    rw [joinComma_foldr ('>' :: r) tl s0]
    have hs0 := hclean s0 (List.mem_cons_self _ _)
    have helem : listElem (s0 ++ tl.foldr (fun x acc2 => ',' :: (x ++ acc2)) ('>' :: r))
        = some (s0, tl.foldr (fun x acc2 => ',' :: (x ++ acc2)) ('>' :: r)) := by
      apply listElem_run hs0.1 (cleanSym_not_listDelim hs0)
      cases tl with
      | nil => exact Or.inr ⟨'>', r, rfl, by decide⟩
      | cons y tl2 => exact Or.inr ⟨',', _, rfl, by decide⟩
    unfold sepList0
    rw [helem]
    show sepItems (tl.foldr (fun x acc2 => ',' :: (x ++ acc2)) ('>' :: r)).length
      (tl.foldr (fun x acc2 => ',' :: (x ++ acc2)) ('>' :: r)) [s0] = _
    rw [sepItems_run r tl [s0] _ (fun y hy => hclean y (List.mem_cons_of_mem _ hy)) (le_refl _)]
    simp
theorem sectionAfter_present {mark : Char} {sibs : List Sym} {r : List Char}
    (hne : sibs ≠ []) (hclean : ∀ x ∈ sibs, cleanSym x) :
    sectionAfter mark (mark :: '<' :: (joinComma sibs ++ '>' :: r)) = (some sibs, r) := by
  show (if mark = mark ∧ ('<' : Char) = '<' then
      match (sepList0 (joinComma sibs ++ '>' :: r)).2 with
      | c3 :: rest2 =>
        if c3 = '>' then (some (sepList0 (joinComma sibs ++ '>' :: r)).1, rest2)
        else (none, mark :: '<' :: (joinComma sibs ++ '>' :: r))
      | [] => (none, mark :: '<' :: (joinComma sibs ++ '>' :: r))
    else (none, mark :: '<' :: (joinComma sibs ++ '>' :: r))) = (some sibs, r)
  rw [if_pos ⟨rfl, rfl⟩, sepList0_run hne hclean]
  simp

theorem sectionAfter_absent {mark : Char} {s : List Char}
    (h : s = [] ∨ ∃ c tl, s = c :: tl ∧ ¬ c = mark) :
    sectionAfter mark s = (none, s) := by
  rcases h with rfl | ⟨c, tl, rfl, hc⟩
  · rfl
  · cases tl with
    | nil => rfl
    | cons c2 tl2 =>
      show (if c = mark ∧ c2 = '<' then
          match (sepList0 tl2).2 with
          | c3 :: rest2 =>
            if c3 = '>' then (some (sepList0 tl2).1, rest2) else (none, c :: c2 :: tl2)
          | [] => (none, c :: c2 :: tl2)
        else (none, c :: c2 :: tl2)) = (none, c :: c2 :: tl2)
      rw [if_neg (fun hand => hc hand.1)]

theorem parse_markovized_node_step {s label rest : List Char}
    (h : isNotRun labelDelim s = some (label, rest)) :
    parse_markovized_node s
      = some (.markovized ⟨label, (sectionAfter '|' rest).1.getD [],
          (sectionAfter '^' (sectionAfter '|' rest).2).1.getD []⟩,
        (sectionAfter '^' (sectionAfter '|' rest).2).2) := by
  unfold parse_markovized_node
  rw [h]

theorem joinComma_mem : ∀ {l : List Sym} {c : Char}, c ∈ joinComma l → c = ',' ∨ ∃ x ∈ l, c ∈ x := by
  intro l
  induction l with
  | nil =>
    intro c hc
    exact absurd hc (by simp [joinComma])
  | cons x tl ih =>
    intro c hc
    cases tl with
    | nil =>
      exact Or.inr ⟨x, List.mem_cons_self _ _, hc⟩
    | cons y tl2 =>
      rw [show joinComma (x :: y :: tl2) = x ++ ',' :: joinComma (y :: tl2) from rfl] at hc
      rcases List.mem_append.mp hc with h | h
      · exact Or.inr ⟨x, List.mem_cons_self _ _, h⟩
      · rcases List.mem_cons.mp h with rfl | h2
        · exact Or.inl rfl
        · rcases ih h2 with h3 | ⟨z, hz, hcz⟩
          · exact Or.inl h3
          · exact Or.inr ⟨z, List.mem_cons_of_mem _ hz, hcz⟩

theorem display_no_ws {m : MarkovizedNode Sym}
    (hl : cleanSym m.label) (hc : ∀ x ∈ m.children, cleanSym x)
    (ha : ∀ x ∈ m.ancestors, cleanSym x) :
    ∀ c ∈ displayMarkovized m, c.isWhitespace = false := by
  intro c hcm
  unfold displayMarkovized at hcm
  rcases List.mem_append.mp hcm with h12 | h3
  · rcases List.mem_append.mp h12 with h1 | h2
    · have := (hl.2 c h1).2
      simpa using this
    · by_cases hch : m.children.isEmpty
      · rw [if_pos hch] at h2
        exact absurd h2 (by simp)
      · rw [if_neg hch] at h2
        rcases List.mem_cons.mp h2 with rfl | h2b
        · decide
        · rcases List.mem_cons.mp h2b with rfl | h2c
          · decide
          · rcases List.mem_append.mp h2c with h2d | h2e
            · rcases joinComma_mem h2d with rfl | ⟨x, hx, hcx⟩
              · decide
              · have := ((hc x hx).2 c hcx).2
                simpa using this
            · rw [List.mem_singleton.mp h2e]
              decide
  · by_cases han : m.ancestors.isEmpty
    · rw [if_pos han] at h3
      exact absurd h3 (by simp)
    · rw [if_neg han] at h3
      rcases List.mem_cons.mp h3 with rfl | h3b
      · decide
      · rcases List.mem_cons.mp h3b with rfl | h3c
        · decide
        · rcases List.mem_append.mp h3c with h3d | h3e
          · rcases joinComma_mem h3d with rfl | ⟨x, hx, hcx⟩
            · decide
            · have := ((ha x hx).2 c hcx).2
              simpa using this
          · rw [List.mem_singleton.mp h3e]
            decide

theorem dropWhile_eq_self_of_all {p : Char → Bool} {s : List Char}
    (h : ∀ c ∈ s, p c = false) : s.dropWhile p = s := by
  cases s with
  | nil => rfl
  | cons a tl =>
    rw [List.dropWhile_cons, if_neg (by simp [h a (List.mem_cons_self _ _)])]

theorem trimC_eq_self {s : List Char} (h : ∀ c ∈ s, c.isWhitespace = false) : trimC s = s := by
  unfold trimC
  rw [dropWhile_eq_self_of_all h]
  rw [dropWhile_eq_self_of_all (fun c hc => h c (List.mem_reverse.mp hc))]
  exact List.reverse_reverse s

theorem parse_markovized_display {m : MarkovizedNode Sym}
    (hl : cleanSym m.label) (hc : ∀ x ∈ m.children, cleanSym x)
    (ha : ∀ x ∈ m.ancestors, cleanSym x)
    (hne : m.children ≠ [] ∨ m.ancestors ≠ []) :
    parse_markovized_node (displayMarkovized m) = some (.markovized m, []) := by
  have hlabelclean : ∀ c ∈ m.label, labelDelim c = false :=
    fun c hcm => labelDelim_false (cleanSym_not_listDelim hl c hcm)
  by_cases hch : m.children = []
  · have han : m.ancestors ≠ [] := by
      rcases hne with h | h
      · exact absurd hch h
      · exact h
    have hdisp2 : displayMarkovized m
        = m.label ++ ('^' :: '<' :: (joinComma m.ancestors ++ ['>'])) := by
      unfold displayMarkovized
      rw [hch]
      rw [if_pos (by simp), if_neg (by simpa using han)]
      simp
    rw [hdisp2]
    rw [parse_markovized_node_step
      (isNotRun_run hl.1 hlabelclean (Or.inr ⟨'^', _, rfl, by decide⟩))]
    rw [sectionAfter_absent (Or.inr ⟨'^', _, rfl, by decide⟩)]
    rw [show ((none : Option (List Sym)),
        '^' :: '<' :: (joinComma m.ancestors ++ ['>'])).2
      = '^' :: '<' :: (joinComma m.ancestors ++ '>' :: []) from rfl]
    rw [sectionAfter_present han ha]
    cases m with
    | mk label children ancestors =>
      simp at hch
      simp [hch]
  · have hdisp2 : displayMarkovized m
        = m.label ++ ('|' :: '<' :: (joinComma m.children ++ '>' ::
            (if m.ancestors.isEmpty then []
             else '^' :: '<' :: (joinComma m.ancestors ++ ['>'])))) := by
      unfold displayMarkovized
      rw [if_neg (by simpa using hch)]
      rw [List.append_assoc]
      congr 1
      rw [show ('|' :: '<' :: (joinComma m.children ++ ['>'])) ++ (if m.ancestors.isEmpty then []
             else '^' :: '<' :: (joinComma m.ancestors ++ ['>']))
          = '|' :: '<' :: ((joinComma m.children ++ ['>']) ++ (if m.ancestors.isEmpty then []
             else '^' :: '<' :: (joinComma m.ancestors ++ ['>']))) from rfl]
      rw [List.append_assoc]
      rfl
    rw [hdisp2]
    rw [parse_markovized_node_step
      (isNotRun_run hl.1 hlabelclean (Or.inr ⟨'|', _, rfl, by decide⟩))]
    rw [sectionAfter_present hch hc]
    by_cases han : m.ancestors = []
    · rw [show ((some m.children,
          (if m.ancestors.isEmpty then []
           else '^' :: '<' :: (joinComma m.ancestors ++ ['>']))) :
            Option (List Sym) × List Char).2
        = (if m.ancestors.isEmpty then []
           else '^' :: '<' :: (joinComma m.ancestors ++ ['>'])) from rfl]
      rw [if_pos (by simpa using han)]
      rw [sectionAfter_absent (Or.inl rfl)]
      cases m with
      | mk label children ancestors =>
        simp at han
        simp [han]
    · rw [show ((some m.children,
          (if m.ancestors.isEmpty then []
           else '^' :: '<' :: (joinComma m.ancestors ++ ['>']))) :
            Option (List Sym) × List Char).2
        = (if m.ancestors.isEmpty then []
           else '^' :: '<' :: (joinComma m.ancestors ++ ['>'])) from rfl]
      rw [if_neg (by simpa using han)]
      rw [show '^' :: '<' :: (joinComma m.ancestors ++ ['>'])
        = '^' :: '<' :: (joinComma m.ancestors ++ '>' :: []) from rfl]
      rw [sectionAfter_present han ha]
      simp
theorem parse_bare_node_clean {s : Sym} (h : cleanSym s) : parse_bare_node s = some (.bare s) := by
  unfold parse_bare_node
  have hrun := @isNotRun_run labelDelim s [] h.1
    (fun c hc => labelDelim_false (cleanSym_not_listDelim h c hc)) (Or.inl rfl)
  rw [List.append_nil] at hrun
  rw [hrun]

theorem parse_bare_node_of_cons {s label : List Char} {c : Char} {tl : List Char}
    (h : isNotRun labelDelim s = some (label, c :: tl)) : parse_bare_node s = none := by
  unfold parse_bare_node
  rw [h]

theorem display_shape {m : MarkovizedNode Sym} (hne : m.children ≠ [] ∨ m.ancestors ≠ []) :
    (∃ tl, displayMarkovized m = m.label ++ ('|' :: tl))
      ∨ (∃ tl, displayMarkovized m = m.label ++ ('^' :: tl)) := by
  by_cases hch : m.children = []
  · have han : m.ancestors ≠ [] := by
      rcases hne with h | h
      · exact absurd hch h
      · exact h
    refine Or.inr ⟨'<' :: (joinComma m.ancestors ++ ['>']), ?_⟩
    unfold displayMarkovized
    rw [hch, if_pos (by simp), if_neg (by simpa using han)]
    simp
  · refine Or.inl ⟨'<' :: (joinComma m.children ++ ['>'])
      ++ (if m.ancestors.isEmpty then [] else '^' :: '<' :: (joinComma m.ancestors ++ ['>'])), ?_⟩
    unfold displayMarkovized
    rw [if_neg (by simpa using hch)]
    rw [List.append_assoc]
    rfl

theorem fromStr_bare {s : Sym} (h : cleanSym s) : Binarized.fromStr s = some (.bare s) := by
  have hstep : Binarized.fromStr s
      = (match parse_bare_node (trimC s) with
         | some b => some b
         | none =>
           match parse_markovized_node (trimC s) with
           | some (b, []) => some b
           | _ => none) := rfl
  rw [hstep, trimC_eq_self (fun c hc => by simpa using (h.2 c hc).2)]
  rw [parse_bare_node_clean h]

theorem fromStr_markovized {m : MarkovizedNode Sym}
    (hl : cleanSym m.label) (hc : ∀ x ∈ m.children, cleanSym x)
    (ha : ∀ x ∈ m.ancestors, cleanSym x)
    (hne : m.children ≠ [] ∨ m.ancestors ≠ []) :
    Binarized.fromStr (displayMarkovized m) = some (.markovized m) := by
  have hlabelclean : ∀ c ∈ m.label, labelDelim c = false :=
    fun c hcm => labelDelim_false (cleanSym_not_listDelim hl c hcm)
  have hstep : Binarized.fromStr (displayMarkovized m)
      = (match parse_bare_node (trimC (displayMarkovized m)) with
         | some b => some b
         | none =>
           match parse_markovized_node (trimC (displayMarkovized m)) with
           | some (b, []) => some b
           | _ => none) := rfl
  rw [hstep, trimC_eq_self (display_no_ws hl hc ha)]
  have hbare : parse_bare_node (displayMarkovized m) = none := by
    rcases display_shape hne with ⟨tl, hd⟩ | ⟨tl, hd⟩
    · rw [hd]
      exact parse_bare_node_of_cons
        (isNotRun_run hl.1 hlabelclean (Or.inr ⟨'|', tl, rfl, by decide⟩))
    · rw [hd]
      exact parse_bare_node_of_cons
        (isNotRun_run hl.1 hlabelclean (Or.inr ⟨'^', tl, rfl, by decide⟩))
  rw [hbare, parse_markovized_display hl hc ha hne]

/-- C3 counterexample: a markovized label with empty sibling and ancestor
lists renders as the plain symbol and parses back as a bare label, so
printing then parsing is not the identity on all binarized labels. -/
theorem C3_roundtrip_counterexample :
    Binarized.fromStr (displayBinarized (.markovized ⟨['A'], [], []⟩))
      = some (.bare ['A']) ∧
    (Binarized.markovized ⟨['A'], [], []⟩ : Binarized Sym) ≠ .bare ['A'] :=
  ⟨by decide, by decide⟩

/-- C3 amended: printing then parsing is the identity on every binarized
label whose symbols are non-empty, free of the reserved characters and of
whitespace, except for a markovized label with both annotation lists
empty, which renders exactly like a bare label. -/
theorem C3_label_text_roundtrip (l : Binarized Sym)
    (hclean : cleanLabel l) (hunamb : unambiguousLabel l) :
    Binarized.fromStr (displayBinarized l) = some l := by
  cases l with
  | bare a => exact fromStr_bare hclean
  | markovized m =>
    exact fromStr_markovized hclean.1 hclean.2.1 hclean.2.2 hunamb

/-- Witness for C3 on the label NP with one sibling D and one ancestor S. -/
theorem C3_label_text_roundtrip_witness :
    cleanLabel (.markovized ⟨['N', 'P'], [['D']], [['S']]⟩) ∧
    unambiguousLabel (Binarized.markovized ⟨['N', 'P'], [['D']], [['S']]⟩ : Binarized Sym) ∧
    Binarized.fromStr (displayBinarized (.markovized ⟨['N', 'P'], [['D']], [['S']]⟩))
      = some (.markovized ⟨['N', 'P'], [['D']], [['S']]⟩) :=
  ⟨by constructor
      · exact ⟨by decide, by decide⟩
      · constructor
        · intro s hs
          rw [List.mem_singleton.mp hs]
          exact ⟨by decide, by decide⟩
        · intro s hs
          rw [List.mem_singleton.mp hs]
          exact ⟨by decide, by decide⟩,
   by left ; decide,
   C3_label_text_roundtrip _
     ⟨⟨by decide, by decide⟩,
      fun s hs => by rw [List.mem_singleton.mp hs] ; exact ⟨by decide, by decide⟩,
      fun s hs => by rw [List.mem_singleton.mp hs] ; exact ⟨by decide, by decide⟩⟩
     (by left ; decide)⟩

theorem Tree.size_le_sizeL {α : Type} {c : Tree α} {cs : List (Tree α)} (hc : c ∈ cs) :
    c.size ≤ sizeL cs := by
  rw [sizeL_eq_sum]
  exact List.single_le_sum (fun (x : Nat) _ => Nat.zero_le x) c.size
    (List.mem_map_of_mem Tree.size hc)

theorem markovizeF_congr : ∀ (n : Nat) (t : Tree Sym) (m : Nat) (v h : Nat) (p : List Sym),
    t.size ≤ n → t.size ≤ m → markovizeF n t v h p = markovizeF m t v h p := by
  intro n
  induction n with
  | zero =>
    intro t m v h p hn _
    have := Tree.size_pos t
    omega
  | succ n ih =>
    intro t m v h p hn hm
    have hm1 : 1 ≤ m := le_trans (Tree.size_pos t) hm
    match t, m, hm1 with
    | .node root cs, m' + 1, _ =>
      rw [Tree.size] at hn hm
      have hszn : sizeL cs ≤ n := by omega
      have hszm : sizeL cs ≤ m' := by omega
      show markovizeF (n + 1) (.node root cs) v h p = markovizeF (m' + 1) (.node root cs) v h p
      simp only [markovizeF]
      by_cases hpre : cs.all Tree.is_leaf
      · rw [if_pos hpre, if_pos hpre]
      · rw [if_neg hpre, if_neg hpre]
        by_cases hsmall : cs.length ≤ 2
        · rw [if_pos hsmall, if_pos hsmall]
          congr 1
          apply List.map_congr_left
          intro c hc
          have hc1 : c.size ≤ n := le_trans (Tree.size_le_sizeL hc) hszn
          have hc2 : c.size ≤ m' := le_trans (Tree.size_le_sizeL hc) hszm
          exact ih c m' v h _ hc1 hc2
        · rw [if_neg hsmall, if_neg hsmall]
          match cs, hsmall with
          | c1 :: rest, _ =>
            have hrest : sizeL ((c1 :: rest).drop 1) = sizeL rest := rfl
            have hc1n : c1.size ≤ n :=
              le_trans (Tree.size_le_sizeL (List.mem_cons_self _ _)) hszn
            have hc1m : c1.size ≤ m' :=
              le_trans (Tree.size_le_sizeL (List.mem_cons_self _ _)) hszm
            have htailn : ∀ fmt : Sym, (Tree.node fmt ((c1 :: rest).drop 1)).size ≤ n := by
              intro fmt
              rw [Tree.size, hrest]
              have h1 : sizeL (c1 :: rest) = c1.size + sizeL rest := rfl
              have h2 := Tree.size_pos c1
              omega
            have htailm : ∀ fmt : Sym, (Tree.node fmt ((c1 :: rest).drop 1)).size ≤ m' := by
              intro fmt
              rw [Tree.size, hrest]
              have h1 : sizeL (c1 :: rest) = c1.size + sizeL rest := rfl
              have h2 := Tree.size_pos c1
              omega
            congr 1
            congr 1
            · exact ih _ m' v h _ hc1n hc1m
            · congr 1
              exact ih _ m' v h _ (htailn _) (htailm _)

theorem markovize_eq_markovizeF {t : Tree Sym} {fuel v h : Nat} {p : List Sym}
    (hf : t.size ≤ fuel) : t.markovize v h p = markovizeF fuel t v h p :=
  markovizeF_congr t.size t fuel v h p (le_refl _) hf

/-- C6 counterexample: a small-arity non-preterminal node markovized with
no retained ancestors receives a markovized label with empty annotation
lists, not a bare label as the claim states. -/
theorem C6_small_arity_counterexample :
    ((Tree.node ['S'] [Tree.node ['A'] [Tree.node ['a'] []]]).markovize 1 0 []).root
      = .markovized ⟨['S'], [], []⟩ ∧
    (Binarized.markovized ⟨['S'], [], []⟩ : Binarized Sym) ≠ .bare ['S'] :=
  ⟨by decide, by decide⟩

/-- C6 amended: in the small-arity case on a clean bare label, markovize
always emits the markovized label of the root with empty siblings and
the passed parents as ancestors (rendering identically to a bare label
when parents is empty), and recurses into each child with the shifted
parent list; the shift yields the empty list for vertical parameter at
most one and otherwise prepends the augmenter and truncates to one less
than the parameter. -/
theorem C6_markovize_small_arity (root : Sym) (cs : List (Tree Sym)) (v h : Nat)
    (parents : List Sym)
    (hpre : ¬ (cs.all Tree.is_leaf = true)) (hlen : cs.length ≤ 2) (hclean : cleanSym root) :
    (Tree.node root cs).markovize v h parents
      = Tree.node (.markovized ⟨root, [], parents⟩)
          (cs.map (fun c => c.markovize v h (augment_parents parents root v))) ∧
    (∀ (aug : Sym) (ps : List Sym), v ≤ 1 → augment_parents ps aug v = []) ∧
    (∀ (aug : Sym) (ps : List Sym), 2 ≤ v → augment_parents ps aug v = (aug :: ps).take (v - 1)) := by
  refine ⟨?_, ?_, ?_⟩
  · rw [markovize_eq_markovizeF (show (Tree.node root cs).size ≤ sizeL cs + 1 by
      rw [Tree.size] ; omega)]
    simp only [markovizeF]
    rw [if_neg hpre, if_pos hlen, fromStr_bare hclean]
    show Tree.node (.markovized ⟨root, [], parents⟩)
        (cs.map (fun c => markovizeF (sizeL cs) c v h
          (augment_parents parents ((Binarized.bare root).extract_label) v))) = _
    congr 1
    apply List.map_congr_left
    intro c hc
    exact (markovize_eq_markovizeF (Tree.size_le_sizeL hc)).symm
  · intro aug ps hv
    unfold augment_parents
    rw [if_pos (by omega)]
  · intro aug ps hv
    unfold augment_parents
    rw [if_neg (by omega)]

/-- Witness for C6 on the unary non-preterminal node S over (A a) with
vertical parameter three and one recorded parent. -/
theorem C6_markovize_small_arity_witness :
    (¬ (([Tree.node ['A'] [Tree.node ['a'] []]].all Tree.is_leaf) = true)) ∧
    cleanSym ['S'] ∧
    (Tree.node ['S'] [Tree.node ['A'] [Tree.node ['a'] []]]).markovize 3 0 [['T']]
      = Tree.node (.markovized ⟨['S'], [], [['T']]⟩)
          ([Tree.node ['A'] [Tree.node ['a'] []]].map
            (fun c => c.markovize 3 0 (augment_parents [['T']] ['S'] 3))) :=
  ⟨by decide, ⟨by decide, by decide⟩,
   (C6_markovize_small_arity ['S'] [Tree.node ['A'] [Tree.node ['a'] []]] 3 0 [['T']]
     (by decide) (by decide) ⟨by decide, by decide⟩).1⟩

theorem sizeL_append {α : Type} (l1 l2 : List (Tree α)) :
    sizeL (l1 ++ l2) = sizeL l1 + sizeL l2 := by
  rw [sizeL_eq_sum, sizeL_eq_sum, sizeL_eq_sum, List.map_append, List.sum_append]

theorem collapse_size {α : Type} {cs : List (Tree (Binarized α))} {last : Tree (Binarized α)}
    (hlast : cs.getLast? = some last) (root : Binarized α) :
    (Tree.node root (cs.dropLast ++ last.children)).size = sizeL cs := by
  have hcs : cs.dropLast ++ [last] = cs :=
    List.dropLast_append_getLast? last (Option.mem_def.mpr hlast)
  rw [Tree.size, sizeL_append]
  have h2 : sizeL cs = sizeL cs.dropLast + Tree.size last := by
    conv_lhs => rw [← hcs]
    rw [sizeL_append]
    rfl
  have h3 : Tree.size last = 1 + sizeL last.children := by
    cases last with
    | node lr lcs => rfl
  omega

theorem debinarizeF_congr {α : Type} : ∀ (n : Nat) (t : Tree (Binarized α)) (m : Nat),
    t.size ≤ n → t.size ≤ m → debinarizeF n t = debinarizeF m t := by
  intro n
  induction n with
  | zero =>
    intro t m hn _
    have := Tree.size_pos t
    omega
  | succ n ih =>
    intro t m hn hm
    have hm1 : 1 ≤ m := le_trans (Tree.size_pos t) hm
    match t, m, hm1 with
    | .node root cs, m' + 1, _ =>
      rw [Tree.size] at hn hm
      have hszn : sizeL cs ≤ n := by omega
      have hszm : sizeL cs ≤ m' := by omega
      show debinarizeF (n + 1) (.node root cs) = debinarizeF (m' + 1) (.node root cs)
      simp only [debinarizeF]
      cases hlast : cs.getLast? with
      | none => rfl
      | some last =>
        show (if (last.root.is_markovized && last.children.length == 2) = true
            then debinarizeF n (.node root (cs.dropLast ++ last.children))
            else Tree.node root.extract_label (cs.map (debinarizeF n)))
          = (if (last.root.is_markovized && last.children.length == 2) = true
            then debinarizeF m' (.node root (cs.dropLast ++ last.children))
            else Tree.node root.extract_label (cs.map (debinarizeF m')))
        cases hb : (last.root.is_markovized && last.children.length == 2) with
        | true =>
          rw [if_pos rfl, if_pos rfl]
          have hsz := collapse_size hlast root
          exact ih _ m' (by omega) (by omega)
        | false =>
          rw [if_neg (by decide), if_neg (by decide)]
          congr 1
          apply List.map_congr_left
          intro c hc
          exact ih c m' (le_trans (Tree.size_le_sizeL hc) hszn)
            (le_trans (Tree.size_le_sizeL hc) hszm)

theorem debinarize_eq_debinarizeF {α : Type} {t : Tree (Binarized α)} {fuel : Nat}
    (hf : t.size ≤ fuel) : t.debinarize = debinarizeF fuel t :=
  debinarizeF_congr t.size t fuel (le_refl _) hf

theorem specDebinarizeF_congr {α : Type} : ∀ (n : Nat) (t : Tree (Binarized α)) (m : Nat),
    t.size ≤ n → t.size ≤ m → specDebinarizeF n t = specDebinarizeF m t := by
  intro n
  induction n with
  | zero =>
    intro t m hn _
    have := Tree.size_pos t
    omega
  | succ n ih =>
    intro t m hn hm
    have hm1 : 1 ≤ m := le_trans (Tree.size_pos t) hm
    match t, m, hm1 with
    | .node root cs, m' + 1, _ =>
      rw [Tree.size] at hn hm
      have hszn : sizeL cs ≤ n := by omega
      have hszm : sizeL cs ≤ m' := by omega
      show specDebinarizeF (n + 1) (.node root cs) = specDebinarizeF (m' + 1) (.node root cs)
      simp only [specDebinarizeF]
      cases hlast : cs.getLast? with
      | none => rfl
      | some last =>
        show (if last.root.is_markovized = true
            then specDebinarizeF n (.node root (cs.dropLast ++ last.children))
            else Tree.node root.extract_label (cs.map (specDebinarizeF n)))
          = (if last.root.is_markovized = true
            then specDebinarizeF m' (.node root (cs.dropLast ++ last.children))
            else Tree.node root.extract_label (cs.map (specDebinarizeF m')))
        cases hb : last.root.is_markovized with
        | true =>
          rw [if_pos rfl, if_pos rfl]
          have hsz := collapse_size hlast root
          exact ih _ m' (by omega) (by omega)
        | false =>
          rw [if_neg (by decide), if_neg (by decide)]
          congr 1
          apply List.map_congr_left
          intro c hc
          exact ih c m' (le_trans (Tree.size_le_sizeL hc) hszn)
            (le_trans (Tree.size_le_sizeL hc) hszm)

/-- C4 counterexample: on a node whose last child carries a markovized
root with non-empty siblings but only one tree child, the claimed rule
collapses while the source debinarization does not, because the source
additionally requires exactly two children; the two results differ. -/
theorem C4_collapse_counterexample :
    (Tree.node (.bare ['S'])
      [Tree.node (.markovized ⟨['S'], [['B']], []⟩)
        [Tree.node (.bare ['B']) []]]).debinarize.flat
      = [(1, ['S']), (1, ['S']), (0, ['B'])] ∧
    (Tree.node (.bare ['S'])
      [Tree.node (.markovized ⟨['S'], [['B']], []⟩)
        [Tree.node (.bare ['B']) []]]).specDebinarize.flat
      = [(1, ['S']), (0, ['B'])] ∧
    (Tree.node (.bare ['S'])
      [Tree.node (.markovized ⟨['S'], [['B']], []⟩)
        [Tree.node (.bare ['B']) []]]).debinarize.flat
      ≠ (Tree.node (.bare ['S'])
          [Tree.node (.markovized ⟨['S'], [['B']], []⟩)
            [Tree.node (.bare ['B']) []]]).specDebinarize.flat :=
  ⟨by decide, by decide, by decide⟩

/-- C4 amended: debinarization collapses a node, splicing the children
of its last child into its own child list and dropping that child, then
re-evaluating, exactly when the root of that last child is a markovized
label with non-empty siblings AND the last child has exactly two
children; otherwise it recurses into the children, each output label
being the label field with ancestors discarded. -/
theorem C4_debinarize_collapse_rule {α : Type} (root : Binarized α)
    (cs : List (Tree (Binarized α))) :
    (cs = [] → (Tree.node root cs).debinarize = Tree.node root.extract_label []) ∧
    (∀ last, cs.getLast? = some last →
      ((last.root.is_markovized && last.children.length == 2) = true →
        (Tree.node root cs).debinarize
          = (Tree.node root (cs.dropLast ++ last.children)).debinarize) ∧
      ((last.root.is_markovized && last.children.length == 2) = false →
        (Tree.node root cs).debinarize
          = Tree.node root.extract_label (cs.map Tree.debinarize))) := by
  constructor
  · intro hnil
    subst hnil
    rfl
  · intro last hlast
    have hstep : (Tree.node root cs).debinarize = debinarizeF (sizeL cs + 1) (.node root cs) :=
      debinarize_eq_debinarizeF (by rw [Tree.size] ; omega)
    constructor
    · intro hb
      rw [hstep]
      simp only [debinarizeF]
      rw [hlast]
      show (if (last.root.is_markovized && last.children.length == 2) = true
        then debinarizeF (sizeL cs) (.node root (cs.dropLast ++ last.children))
        else Tree.node root.extract_label (cs.map (debinarizeF (sizeL cs)))) = _
      rw [if_pos hb]
      exact (debinarize_eq_debinarizeF (by rw [collapse_size hlast root])).symm
    · intro hb
      rw [hstep]
      simp only [debinarizeF]
      rw [hlast]
      show (if (last.root.is_markovized && last.children.length == 2) = true
        then debinarizeF (sizeL cs) (.node root (cs.dropLast ++ last.children))
        else Tree.node root.extract_label (cs.map (debinarizeF (sizeL cs)))) = _
      rw [if_neg (by simp [hb])]
      congr 1
      apply List.map_congr_left
      intro c hc
      exact (debinarize_eq_debinarizeF (Tree.size_le_sizeL hc)).symm

/-- Witness for C4 on a collapsible node: the last child carries
markovized siblings and two children, and the node is collapsed. -/
theorem C4_debinarize_collapse_rule_witness :
    ([Tree.node (Binarized.markovized ⟨['S'], [['B']], []⟩)
        [Tree.node (Binarized.bare ['B']) [], Tree.node (Binarized.bare ['C']) []]].getLast?
      = some (Tree.node (Binarized.markovized ⟨['S'], [['B']], []⟩)
        [Tree.node (Binarized.bare ['B']) [], Tree.node (Binarized.bare ['C']) []])) ∧
    (Tree.node (Binarized.bare ['S'] : Binarized Sym)
      [Tree.node (Binarized.markovized ⟨['S'], [['B']], []⟩)
        [Tree.node (Binarized.bare ['B']) [], Tree.node (Binarized.bare ['C']) []]]).debinarize
      = (Tree.node (Binarized.bare ['S'] : Binarized Sym)
          ([Tree.node (Binarized.markovized ⟨['S'], [['B']], []⟩)
            [Tree.node (Binarized.bare ['B']) [], Tree.node (Binarized.bare ['C']) []]].dropLast
            ++ [Tree.node (Binarized.bare ['B'] : Binarized Sym) [], Tree.node (Binarized.bare ['C']) []])).debinarize :=
  ⟨rfl,
   ((C4_debinarize_collapse_rule (Binarized.bare ['S'])
      [Tree.node (Binarized.markovized ⟨['S'], [['B']], []⟩)
        [Tree.node (Binarized.bare ['B']) [], Tree.node (Binarized.bare ['C']) []]]).2
     (Tree.node (Binarized.markovized ⟨['S'], [['B']], []⟩)
        [Tree.node (Binarized.bare ['B']) [], Tree.node (Binarized.bare ['C']) []]) rfl).1
     (by decide)⟩

theorem wsum_cons {N T : Type} [DecidableEq N] [DecidableEq T]
    (kv : Rule N T × Nat) (tl : RuleMap N T) (r : Rule N T) :
    wsum (kv :: tl) r = (if kv.1 = r then kv.2 else 0) + wsum tl r := by
  unfold wsum
  rw [List.filter_cons]
  by_cases h : kv.1 = r
  · rw [if_pos (by simpa using h), if_pos h, List.map_cons, List.sum_cons]
  · rw [if_neg (by simpa using h), if_neg h]
    omega

theorem insert_with_weight_cons {N T : Type} [DecidableEq N] [DecidableEq T]
    (k : Rule N T) (v : Nat) (tl : RuleMap N T) (r : Rule N T) (w : Nat) :
    insert_with_weight ((k, v) :: tl) r w
      = if k = r then (r, v + w) :: tl else (k, v) :: insert_with_weight tl r w := by
  have hget : mapGet ((k, v) :: tl) r = if k = r then some v else mapGet tl r := rfl
  have hins : ∀ w2 : Nat,
      mapInsert ((k, v) :: tl) r w2
        = if k = r then (r, w2) :: tl else (k, v) :: mapInsert tl r w2 := fun _ => rfl
  by_cases h : k = r
  · rw [if_pos h]
    unfold insert_with_weight
    rw [hget, if_pos h]
    show mapInsert ((k, v) :: tl) r (v + w) = (r, v + w) :: tl
    rw [hins, if_pos h]
  · rw [if_neg h]
    unfold insert_with_weight
    rw [hget, if_neg h]
    cases hget2 : mapGet tl r with
    | some x =>
      show mapInsert ((k, v) :: tl) r (x + w) = (k, v) :: mapInsert tl r (x + w)
      rw [hins, if_neg h]
    | none =>
      show mapInsert ((k, v) :: tl) r w = (k, v) :: mapInsert tl r w
      rw [hins, if_neg h]

theorem wsum_insert {N T : Type} [DecidableEq N] [DecidableEq T] :
    ∀ (m : RuleMap N T) (r : Rule N T) (w : Nat) (q : Rule N T),
      wsum (insert_with_weight m r w) q = wsum m q + (if r = q then w else 0) := by
  intro m
  induction m with
  | nil =>
    intro r w q
    show wsum [(r, w)] q = wsum [] q + _
    rw [wsum_cons]
    unfold wsum
    simp
  | cons kv tl ih =>
    intro r w q
    match kv with
    | (k, v) =>
      rw [insert_with_weight_cons]
      by_cases h : k = r
      · rw [if_pos h, wsum_cons, wsum_cons]
        subst h
        by_cases hq : k = q
        · rw [if_pos hq, if_pos hq, if_pos hq]
          omega
        · rw [if_neg hq, if_neg hq, if_neg hq]
          omega
      · rw [if_neg h, wsum_cons, wsum_cons, ih r w q]
        omega

theorem wsum_absorb {N T : Type} [DecidableEq N] [DecidableEq T] :
    ∀ (other m : RuleMap N T) (r : Rule N T),
      wsum (absorb m other) r = wsum m r + wsum other r := by
  intro other
  induction other with
  | nil =>
    intro m r
    show wsum m r = wsum m r + wsum [] r
    unfold wsum
    simp
  | cons kv tl ih =>
    intro m r
    show wsum (absorb (insert_with_weight m kv.1 kv.2) tl) r = _
    rw [ih, wsum_insert, wsum_cons]
    omega

theorem wsum_fromTreeAbsorb {α : Type} [DecidableEq α] (r : Rule α α) :
    ∀ (cs : List (Tree α)) (acc : RuleMap α α),
      wsum (fromTreeAbsorb cs acc) r
        = wsum acc r + (cs.map (fun c => wsum (fromTree c) r)).sum := by
  intro cs
  induction cs with
  | nil =>
    intro acc
    simp [fromTreeAbsorb]
  | cons c tl ih =>
    intro acc
    show wsum (fromTreeAbsorb tl (absorb acc (fromTree c))) r = _
    rw [ih, wsum_absorb]
    simp only [List.map_cons, List.sum_cons]
    omega

theorem specOccL_count {α : Type} [DecidableEq α] (r : Rule α α) :
    ∀ (cs : List (Tree α)),
      (specOccL cs).count r = (cs.map (fun c => (specOccGo c).count r)).sum := by
  intro cs
  induction cs with
  | nil => rfl
  | cons c tl ih =>
    show (specOccGo c ++ specOccL tl).count r = _
    rw [List.count_append, ih]
    simp

theorem wsum_insert_nil_eq_count {N T : Type} [DecidableEq N] [DecidableEq T]
    (R r : Rule N T) :
    wsum (insert_with_weight [] R 1) r = List.count r [R] := by
  show wsum [(R, 1)] r = _
  rw [wsum_cons]
  by_cases he : R = r
  · simp [wsum, he, List.count_cons, List.count_nil]
  · simp [wsum, he, List.count_cons, List.count_nil]

theorem wsum_fromTree_eq_count {α : Type} [DecidableEq α] :
    ∀ (n : Nat) (t : Tree α), t.size ≤ n → ∀ r : Rule α α,
      wsum (fromTree t) r = (specRuleOccurrences t).count r := by
  intro n
  induction n with
  | zero =>
    intro t hn
    have := Tree.size_pos t
    omega
  | succ n ih =>
    intro t hn r
    match t with
    | .node root cs =>
      rw [Tree.size] at hn
      have hsz : sizeL cs ≤ n := by omega
      have hchild : (cs.map (fun c => wsum (fromTree c) r)).sum
          = (cs.map (fun c => (specOccGo c).count r)).sum := by
        congr 1
        apply List.map_congr_left
        intro c hc
        exact ih c (le_trans (Tree.size_le_sizeL hc) (by omega)) r
      match cs with
      | [] =>
        show wsum ([] : RuleMap α α) r = List.count r ([] : List (Rule α α))
        simp [wsum]
      | [c] =>
        have hft : fromTree (.node root [c])
            = fromTreeAbsorb [c]
                (if c.is_leaf then insert_with_weight [] (.lexical root c.root) 1
                 else insert_with_weight [] (.nonLexical root [c.root]) 1) := rfl
        have hso : specRuleOccurrences (.node root [c])
            = (if c.is_leaf then [Rule.lexical root c.root]
               else [Rule.nonLexical root [c.root]]) ++ specOccL [c] := rfl
        rw [hft, hso, wsum_fromTreeAbsorb, List.count_append, specOccL_count, ← hchild]
        congr 1
        by_cases hleaf : c.is_leaf
        · rw [if_pos hleaf, if_pos hleaf, wsum_insert_nil_eq_count]
        · rw [if_neg hleaf, if_neg hleaf, wsum_insert_nil_eq_count]
      | c1 :: c2 :: rest =>
        have hft : fromTree (.node root (c1 :: c2 :: rest))
            = fromTreeAbsorb (c1 :: c2 :: rest)
                (insert_with_weight []
                  (.nonLexical root ((c1 :: c2 :: rest).map Tree.root)) 1) := rfl
        have hso : specRuleOccurrences (.node root (c1 :: c2 :: rest))
            = [Rule.nonLexical root ((c1 :: c2 :: rest).map Tree.root)]
              ++ specOccL (c1 :: c2 :: rest) := rfl
        rw [hft, hso, wsum_fromTreeAbsorb, List.count_append, specOccL_count, ← hchild]
        congr 1
        rw [wsum_insert_nil_eq_count]



theorem mapGet_none_iff {K V : Type} [DecidableEq K] :
    ∀ (m : List (K × V)) (k : K), mapGet m k = none ↔ ∀ kv ∈ m, kv.1 ≠ k := by
  intro m k
  induction m with
  | nil => simp [mapGet]
  | cons kv tl ih =>
    show (if kv.1 = k then some kv.2 else mapGet tl k) = none ↔ _
    by_cases h : kv.1 = k
    · rw [if_pos h]
      simp [h]
    · rw [if_neg h]
      rw [ih]
      simp [h]

theorem mapGet_some_mem {K V : Type} [DecidableEq K] :
    ∀ (m : List (K × V)) (k : K) (v : V), mapGet m k = some v → (k, v) ∈ m := by
  intro m k v
  induction m with
  | nil => intro h ; exact absurd h (by simp [mapGet])
  | cons kv tl ih =>
    intro h
    rw [show mapGet (kv :: tl) k = if kv.1 = k then some kv.2 else mapGet tl k from rfl] at h
    by_cases hk : kv.1 = k
    · rw [if_pos hk] at h
      have hv : kv.2 = v := by simpa using h
      have : kv = (k, v) := Prod.ext hk hv
      rw [← this]
      exact List.mem_cons_self _ _
    · rw [if_neg hk] at h
      exact List.mem_cons_of_mem _ (ih h)

theorem wsum_zero_of_none {N T : Type} [DecidableEq N] [DecidableEq T] :
    ∀ {m : RuleMap N T} {r : Rule N T}, mapGet m r = none → wsum m r = 0 := by
  intro m
  induction m with
  | nil => intro r _ ; rfl
  | cons kv tl ih =>
    intro r h
    rw [show mapGet (kv :: tl) r = if kv.1 = r then some kv.2 else mapGet tl r from rfl] at h
    by_cases hk : kv.1 = r
    · rw [if_pos hk] at h
      exact absurd h (by simp)
    · rw [if_neg hk] at h
      rw [wsum_cons, if_neg hk, ih h]

theorem wsum_of_get_some {N T : Type} [DecidableEq N] [DecidableEq T] :
    ∀ (m : RuleMap N T) (r : Rule N T) (v : Nat),
      (m.map Prod.fst).Nodup → mapGet m r = some v → wsum m r = v := by
  intro m
  induction m with
  | nil => intro r v _ h ; exact absurd h (by simp [mapGet])
  | cons kv tl ih =>
    intro r v hnd h
    rw [List.map_cons, List.nodup_cons] at hnd
    rw [show mapGet (kv :: tl) r = if kv.1 = r then some kv.2 else mapGet tl r from rfl] at h
    by_cases hk : kv.1 = r
    · rw [if_pos hk] at h
      have hv : kv.2 = v := by simpa using h
      have hnone : mapGet tl r = none := by
        rw [mapGet_none_iff]
        intro kv2 hkv2 heq
        apply hnd.1
        rw [hk, ← heq]
        exact List.mem_map_of_mem Prod.fst hkv2
      rw [wsum_cons, if_pos hk, hv, wsum_zero_of_none hnone]
      omega
    · rw [if_neg hk] at h
      rw [wsum_cons, if_neg hk, ih r v hnd.2 h]
      omega

theorem mem_mapInsert {K V : Type} [DecidableEq K] :
    ∀ (m : List (K × V)) (k : K) (v : V) (x : K × V),
      x ∈ mapInsert m k v → x ∈ m ∨ x = (k, v) := by
  intro m k v
  induction m with
  | nil =>
    intro x hx
    exact Or.inr (by simpa [mapInsert] using hx)
  | cons kv tl ih =>
    intro x hx
    rw [show mapInsert (kv :: tl) k v
      = if kv.1 = k then (k, v) :: tl else kv :: mapInsert tl k v from rfl] at hx
    by_cases hk : kv.1 = k
    · rw [if_pos hk] at hx
      rcases List.mem_cons.mp hx with rfl | h
      · exact Or.inr rfl
      · exact Or.inl (List.mem_cons_of_mem _ h)
    · rw [if_neg hk] at hx
      rcases List.mem_cons.mp hx with rfl | h
      · exact Or.inl (List.mem_cons_self _ _)
      · rcases ih x h with h2 | h2
        · exact Or.inl (List.mem_cons_of_mem _ h2)
        · exact Or.inr h2

theorem keys_mapInsert {K V : Type} [DecidableEq K] :
    ∀ (m : List (K × V)) (k : K) (v : V) (x : K),
      x ∈ (mapInsert m k v).map Prod.fst → x ∈ m.map Prod.fst ∨ x = k := by
  intro m k v x hx
  rcases List.mem_map.mp hx with ⟨kv2, hkv2, rfl⟩
  rcases mem_mapInsert m k v kv2 hkv2 with h | rfl
  · exact Or.inl (List.mem_map_of_mem _ h)
  · exact Or.inr rfl

theorem keys_insert_with_weight {N T : Type} [DecidableEq N] [DecidableEq T]
    (m : RuleMap N T) (r : Rule N T) (w : Nat) (x : Rule N T) :
    x ∈ (insert_with_weight m r w).map Prod.fst → x ∈ m.map Prod.fst ∨ x = r := by
  intro hx
  unfold insert_with_weight at hx
  cases hget : mapGet m r with
  | some y =>
    rw [hget] at hx
    exact keys_mapInsert m r (y + w) x hx
  | none =>
    rw [hget] at hx
    exact keys_mapInsert m r w x hx

theorem nodup_insert_with_weight {N T : Type} [DecidableEq N] [DecidableEq T] :
    ∀ (m : RuleMap N T) (r : Rule N T) (w : Nat),
      (m.map Prod.fst).Nodup → ((insert_with_weight m r w).map Prod.fst).Nodup := by
  intro m
  induction m with
  | nil =>
    intro r w _
    simp [insert_with_weight, mapGet, mapInsert]
  | cons kv tl ih =>
    intro r w hnd
    match kv with
    | (k, v) =>
      rw [List.map_cons, List.nodup_cons] at hnd
      rw [insert_with_weight_cons]
      by_cases hk : k = r
      · rw [if_pos hk]
        rw [List.map_cons, List.nodup_cons]
        exact ⟨hk ▸ hnd.1, hnd.2⟩
      · rw [if_neg hk]
        rw [List.map_cons, List.nodup_cons]
        constructor
        · intro hmem
          have hmem2 : k ∈ (insert_with_weight tl r w).map Prod.fst := hmem
          rcases keys_insert_with_weight tl r w k hmem2 with h | rfl
          · exact hnd.1 h
          · exact hk rfl
        · exact ih r w hnd.2



theorem nodup_absorb {N T : Type} [DecidableEq N] [DecidableEq T] :
    ∀ (other m : RuleMap N T),
      (m.map Prod.fst).Nodup → ((absorb m other).map Prod.fst).Nodup := by
  intro other
  induction other with
  | nil => intro m h ; exact h
  | cons kv tl ih =>
    intro m h
    show ((absorb (insert_with_weight m kv.1 kv.2) tl).map Prod.fst).Nodup
    exact ih _ (nodup_insert_with_weight m kv.1 kv.2 h)

theorem nodup_fromTreeAbsorb {α : Type} [DecidableEq α] :
    ∀ (cs : List (Tree α)) (acc : RuleMap α α),
      (acc.map Prod.fst).Nodup → ((fromTreeAbsorb cs acc).map Prod.fst).Nodup := by
  intro cs
  induction cs with
  | nil => intro acc h ; exact h
  | cons c tl ih =>
    intro acc h
    show ((fromTreeAbsorb tl (absorb acc (fromTree c))).map Prod.fst).Nodup
    exact ih _ (nodup_absorb (fromTree c) acc h)

theorem nodup_fromTree {α : Type} [DecidableEq α] (t : Tree α) :
    ((fromTree t).map Prod.fst).Nodup := by
  match t with
  | .node root cs =>
    match cs with
    | [] => exact nodup_fromTreeAbsorb [] [] (by simp)
    | [c] =>
      show ((fromTreeAbsorb [c]
        (if c.is_leaf then insert_with_weight [] (.lexical root c.root) 1
         else insert_with_weight [] (.nonLexical root [c.root]) 1)).map Prod.fst).Nodup
      apply nodup_fromTreeAbsorb
      by_cases hleaf : c.is_leaf
      · rw [if_pos hleaf]
        exact nodup_insert_with_weight [] _ 1 (by simp)
      · rw [if_neg hleaf]
        exact nodup_insert_with_weight [] _ 1 (by simp)
    | c1 :: c2 :: rest =>
      show ((fromTreeAbsorb (c1 :: c2 :: rest)
        (insert_with_weight []
          (.nonLexical root ((c1 :: c2 :: rest).map Tree.root)) 1)).map Prod.fst).Nodup
      exact nodup_fromTreeAbsorb _ _ (nodup_insert_with_weight [] _ 1 (by simp))

theorem pos_insert_with_weight {N T : Type} [DecidableEq N] [DecidableEq T]
    {m : RuleMap N T} {r : Rule N T} {w : Nat}
    (hm : ∀ rw ∈ m, 1 ≤ rw.2) (hw : 1 ≤ w) :
    ∀ rw ∈ insert_with_weight m r w, 1 ≤ rw.2 := by
  intro rw2 hrw
  unfold insert_with_weight at hrw
  cases hget : mapGet m r with
  | some y =>
    rw [hget] at hrw
    rcases mem_mapInsert m r (y + w) rw2 hrw with h | rfl
    · exact hm rw2 h
    · show 1 ≤ y + w
      omega
  | none =>
    rw [hget] at hrw
    rcases mem_mapInsert m r w rw2 hrw with h | rfl
    · exact hm rw2 h
    · exact hw

theorem pos_absorb {N T : Type} [DecidableEq N] [DecidableEq T] :
    ∀ (other m : RuleMap N T),
      (∀ rw ∈ m, 1 ≤ rw.2) → (∀ rw ∈ other, 1 ≤ rw.2) →
      ∀ rw ∈ absorb m other, 1 ≤ rw.2 := by
  intro other
  induction other with
  | nil => intro m hm _ ; exact hm
  | cons kv tl ih =>
    intro m hm hother
    show ∀ rw ∈ absorb (insert_with_weight m kv.1 kv.2) tl, 1 ≤ rw.2
    exact ih _
      (pos_insert_with_weight hm (hother kv (List.mem_cons_self _ _)))
      (fun rw hrw => hother rw (List.mem_cons_of_mem _ hrw))

theorem pos_fromTree {α : Type} [DecidableEq α] :
    ∀ (n : Nat) (t : Tree α), t.size ≤ n → ∀ rw ∈ fromTree t, 1 ≤ rw.2 := by
  intro n
  induction n with
  | zero =>
    intro t hn
    have := Tree.size_pos t
    omega
  | succ n ih =>
    intro t hn
    match t with
    | .node root cs =>
      rw [Tree.size] at hn
      have habsorb : ∀ (cs2 : List (Tree α)) (acc : RuleMap α α),
          (∀ rw ∈ acc, 1 ≤ rw.2) → (∀ c ∈ cs2, ∀ rw ∈ fromTree c, 1 ≤ rw.2) →
          ∀ rw ∈ fromTreeAbsorb cs2 acc, 1 ≤ rw.2 := by
        intro cs2
        induction cs2 with
        | nil => intro acc hacc _ ; exact hacc
        | cons c tl ih2 =>
          intro acc hacc hcs
          show ∀ rw ∈ fromTreeAbsorb tl (absorb acc (fromTree c)), 1 ≤ rw.2
          exact ih2 _
            (pos_absorb (fromTree c) acc hacc (hcs c (List.mem_cons_self _ _)))
            (fun c2 hc2 => hcs c2 (List.mem_cons_of_mem _ hc2))
      have hkids : ∀ c ∈ cs, ∀ rw ∈ fromTree c, 1 ≤ rw.2 := by
        intro c hc
        exact ih c (by have := Tree.size_le_sizeL hc ; omega)
      match cs, hn, hkids with
      | [], _, hkids =>
        exact habsorb [] [] (by simp) hkids
      | [c], _, hkids =>
        show ∀ rw ∈ fromTreeAbsorb [c]
          (if c.is_leaf then insert_with_weight [] (.lexical root c.root) 1
           else insert_with_weight [] (.nonLexical root [c.root]) 1), 1 ≤ rw.2
        apply habsorb _ _ _ hkids
        by_cases hleaf : c.is_leaf
        · rw [if_pos hleaf]
          exact pos_insert_with_weight (by simp) (le_refl 1)
        · rw [if_neg hleaf]
          exact pos_insert_with_weight (by simp) (le_refl 1)
      | c1 :: c2 :: rest, _, hkids =>
        show ∀ rw ∈ fromTreeAbsorb (c1 :: c2 :: rest)
          (insert_with_weight []
            (.nonLexical root ((c1 :: c2 :: rest).map Tree.root)) 1), 1 ≤ rw.2
        exact habsorb _ _ (pos_insert_with_weight (by simp) (le_refl 1)) hkids

/-- C5: rule induction from a single tree stores, for every rule, exactly
the number of nodes emitting it: a lexical rule for a single leaf child,
a unary non-lexical rule for a single internal child, a non-lexical rule
over all child roots for wider nodes, nothing for leaves, summed over
the whole tree with one count per occurrence; absent rules are absent
from the map. -/
theorem C5_rule_induction_counts {α : Type} [DecidableEq α] (t : Tree α) (r : Rule α α) :
    mapGet (fromTree t) r
      = if (specRuleOccurrences t).count r = 0 then none
        else some ((specRuleOccurrences t).count r) := by
  have hw := wsum_fromTree_eq_count t.size t (le_refl _) r
  cases hget : mapGet (fromTree t) r with
  | none =>
    have h0 := wsum_zero_of_none hget
    rw [if_pos (by omega)]
  | some v =>
    have hv := wsum_of_get_some _ r v (nodup_fromTree t) hget
    have hmem := mapGet_some_mem _ r v hget
    have hvpos := pos_fromTree t.size t (le_refl _) (r, v) hmem
    rw [if_neg (by simp at hvpos ⊢ ; omega)]
    congr 1
    omega

theorem unkifyGo_sentence_get {contains : Sym → Bool} :
    ∀ (s : List Sym) (i j : Nat),
      (unkifyGo contains i s).1.get? j
        = (s.get? j).map (fun w => if contains w then w else unkSym) := by
  intro s
  induction s with
  | nil => intro i j ; rfl
  | cons w tl ih =>
    intro i j
    show (let p := unkifyGo contains (i + 1) tl
      if contains w then (w :: p.1, p.2) else (unkSym :: p.1, (i, w) :: p.2)).1.get? j = _
    by_cases hc : contains w
    · rw [if_pos hc]
      cases j with
      | zero => simp [hc]
      | succ j2 => simpa using ih (i + 1) j2
    · rw [if_neg hc]
      cases j with
      | zero => simp [hc]
      | succ j2 => simpa using ih (i + 1) j2

theorem unkifyGo_record_filter {contains : Sym → Bool} :
    ∀ (s : List Sym) (i : Nat),
      (unkifyGo contains i s).2 = (s.enumFrom i).filter (fun iw => ! contains iw.2) := by
  intro s
  induction s with
  | nil => intro i ; rfl
  | cons w tl ih =>
    intro i
    show (let p := unkifyGo contains (i + 1) tl
      if contains w then (w :: p.1, p.2) else (unkSym :: p.1, (i, w) :: p.2)).2
      = ((i, w) :: tl.enumFrom (i + 1)).filter (fun iw => ! contains iw.2)
    rw [List.filter_cons]
    by_cases hc : contains w
    · rw [if_pos hc, if_neg (by simp [hc])]
      exact ih (i + 1)
    · rw [if_neg hc, if_pos (by simp [hc])]
      rw [ih (i + 1)]

theorem unkifyGo_record_spec {contains : Sym → Bool} :
    ∀ (s : List Sym) (i : Nat) (iw : Nat × Sym), iw ∈ (unkifyGo contains i s).2 →
      i ≤ iw.1 ∧ s.get? (iw.1 - i) = some iw.2 ∧ contains iw.2 = false := by
  intro s
  induction s with
  | nil => intro i iw h ; exact absurd h (by simp [unkifyGo])
  | cons w tl ih =>
    intro i iw h
    rw [show (unkifyGo contains i (w :: tl))
      = (let p := unkifyGo contains (i + 1) tl
         if contains w then (w :: p.1, p.2) else (unkSym :: p.1, (i, w) :: p.2)) from rfl] at h
    by_cases hc : contains w
    · rw [if_pos hc] at h
      obtain ⟨h1, h2, h3⟩ := ih (i + 1) iw h
      refine ⟨by omega, ?_, h3⟩
      have : iw.1 - i = (iw.1 - (i + 1)) + 1 := by omega
      rw [this]
      simpa using h2
    · rw [if_neg hc] at h
      rcases List.mem_cons.mp h with rfl | h2
      · exact ⟨le_refl _, by simp, by simp [hc]⟩
      · obtain ⟨h1, h2, h3⟩ := ih (i + 1) iw h2
        refine ⟨by omega, ?_, h3⟩
        have : iw.1 - i = (iw.1 - (i + 1)) + 1 := by omega
        rw [this]
        simpa using h2

theorem unkifyGo_record_mem {contains : Sym → Bool} :
    ∀ (s : List Sym) (i j : Nat) (w : Sym), s.get? j = some w → contains w = false →
      (i + j, w) ∈ (unkifyGo contains i s).2 := by
  intro s
  induction s with
  | nil => intro i j w h _ ; exact absurd h (by simp)
  | cons w0 tl ih =>
    intro i j w h hc
    show (i + j, w) ∈ (let p := unkifyGo contains (i + 1) tl
      if contains w0 then (w0 :: p.1, p.2) else (unkSym :: p.1, (i, w0) :: p.2)).2
    cases j with
    | zero =>
      have hw : w0 = w := by simpa using h
      subst hw
      rw [if_neg (by simp [hc])]
      simp
    | succ j2 =>
      have h2 : tl.get? j2 = some w := by simpa using h
      have hmem := ih (i + 1) j2 w h2 hc
      have harith : i + (j2 + 1) = (i + 1) + j2 := by omega
      rw [harith]
      by_cases hc0 : contains w0
      · rw [if_pos hc0]
        exact hmem
      · rw [if_neg hc0]
        exact List.mem_cons_of_mem _ hmem

theorem unkifyGo_record_sorted {contains : Sym → Bool} :
    ∀ (s : List Sym) (i : Nat),
      (unkifyGo contains i s).2.Pairwise (fun a b => a.1 < b.1) := by
  intro s
  induction s with
  | nil => intro i ; simp [unkifyGo]
  | cons w tl ih =>
    intro i
    show (let p := unkifyGo contains (i + 1) tl
      if contains w then (w :: p.1, p.2) else (unkSym :: p.1, (i, w) :: p.2)).2.Pairwise _
    by_cases hc : contains w
    · rw [if_pos hc]
      exact ih (i + 1)
    · rw [if_neg hc]
      refine List.Pairwise.cons ?_ (ih (i + 1))
      intro iw hiw
      have := (unkifyGo_record_spec tl (i + 1) iw hiw).1
      omega

theorem get?_set_self {β : Type} : ∀ (l : List β) (i : Nat) (a : β), i < l.length →
    (l.set i a).get? i = some a := by
  intro l
  induction l with
  | nil => intro i a h ; simp at h
  | cons x tl ih =>
    intro i a h
    cases i with
    | zero => rfl
    | succ i2 => simpa using ih i2 a (by simpa using h)

theorem get?_set_ne {β : Type} : ∀ (l : List β) (i j : Nat) (a : β), i ≠ j →
    (l.set i a).get? j = l.get? j := by
  intro l
  induction l with
  | nil => intro i j a _ ; simp
  | cons x tl ih =>
    intro i j a hne
    cases i with
    | zero =>
      cases j with
      | zero => exact absurd rfl hne
      | succ j2 => rfl
    | succ i2 =>
      cases j with
      | zero => rfl
      | succ j2 => simpa using ih i2 j2 a (by omega)

theorem foldl_set_length {N T : Type} :
    ∀ (wm : List (Nat × T)) (l : List (NodeType N T)),
      (wm.foldl (fun l iw => l.set iw.1 (NodeType.terminal iw.2)) l).length = l.length := by
  intro wm
  induction wm with
  | nil => intro l ; rfl
  | cons iw tl ih =>
    intro l
    show (tl.foldl _ (l.set iw.1 (NodeType.terminal iw.2))).length = _
    rw [ih, List.length_set]

theorem foldl_set_get_not_mem {N T : Type} :
    ∀ (wm : List (Nat × T)) (l : List (NodeType N T)) (j : Nat),
      (∀ iw ∈ wm, iw.1 ≠ j) →
      (wm.foldl (fun l iw => l.set iw.1 (NodeType.terminal iw.2)) l).get? j = l.get? j := by
  intro wm
  induction wm with
  | nil => intro l j _ ; rfl
  | cons iw tl ih =>
    intro l j hne
    show (tl.foldl _ (l.set iw.1 (NodeType.terminal iw.2))).get? j = _
    rw [ih _ j (fun x hx => hne x (List.mem_cons_of_mem _ hx))]
    exact get?_set_ne l iw.1 j _ (hne iw (List.mem_cons_self _ _))

theorem foldl_set_get_mem {N T : Type} :
    ∀ (wm : List (Nat × T)) (l : List (NodeType N T)) (j : Nat) (w : T),
      (j, w) ∈ wm → (wm.map Prod.fst).Nodup → j < l.length →
      (wm.foldl (fun l iw => l.set iw.1 (NodeType.terminal iw.2)) l).get? j
        = some (NodeType.terminal w) := by
  intro wm
  induction wm with
  | nil => intro l j w h _ _ ; exact absurd h (by simp)
  | cons iw tl ih =>
    intro l j w hmem hnd hlt
    rw [List.map_cons, List.nodup_cons] at hnd
    show (tl.foldl _ (l.set iw.1 (NodeType.terminal iw.2))).get? j = _
    rcases List.mem_cons.mp hmem with rfl | h2
    · rw [foldl_set_get_not_mem tl _ j ?hne]
      · exact get?_set_self l j _ hlt
      · intro x hx hxj
        have hx2 : x.1 ∈ List.map Prod.fst tl := List.mem_map_of_mem Prod.fst hx
        rw [hxj] at hx2
        exact hnd.1 hx2
    · exact ih _ j w h2 hnd.2 (by rw [List.length_set] ; exact hlt)

theorem rebuildL_length {β : Type} :
    ∀ (cs : List (Tree β)) (l : List β), (rebuildL cs l).1.length = cs.length := by
  intro cs
  induction cs with
  | nil => intro l ; rfl
  | cons c tl ih =>
    intro l
    show ((rebuildT c l).1 :: (rebuildL tl (rebuildT c l).2).1).length = _
    simpa using ih (rebuildT c l).2

theorem rebuild_spec {β : Type} :
    ∀ (n : Nat) (t : Tree β) (l : List β), t.size ≤ n → t.leafCount ≤ l.length →
      (rebuildT t l).1.leavesVals = l.take t.leafCount
        ∧ (rebuildT t l).2 = l.drop t.leafCount := by
  intro n
  induction n with
  | zero =>
    intro t l hn
    have := Tree.size_pos t
    omega
  | succ n ih =>
    intro t l hn hlc
    match t with
    | .node r cs =>
      rw [Tree.size] at hn
      have hQ : ∀ (cs2 : List (Tree β)) (l2 : List β), sizeL cs2 ≤ n →
          (leavesL cs2).length ≤ l2.length →
          leavesL (rebuildL cs2 l2).1 = l2.take (leavesL cs2).length
            ∧ (rebuildL cs2 l2).2 = l2.drop (leavesL cs2).length := by
        intro cs2
        induction cs2 with
        | nil => intro l2 _ _ ; simp [rebuildL, leavesL]
        | cons c tl ih2 =>
          intro l2 hsz hlen
          have hlenc : (leavesL (c :: tl)).length
              = c.leafCount + (leavesL tl).length := by
            show (c.leavesVals ++ leavesL tl).length = _
            simp [Tree.leafCount]
          have hszc : c.size ≤ n := by
            have h1 : sizeL (c :: tl) = c.size + sizeL tl := rfl
            omega
          have hsztl : sizeL tl ≤ n := by
            have h1 : sizeL (c :: tl) = c.size + sizeL tl := rfl
            have := Tree.size_pos c
            omega
          have hlc2 : c.leafCount ≤ l2.length := by omega
          obtain ⟨hA, hB⟩ := ih c l2 hszc hlc2
          have hlen2 : (leavesL tl).length ≤ (rebuildT c l2).2.length := by
            rw [hB, List.length_drop]
            omega
          obtain ⟨hC, hD⟩ := ih2 (rebuildT c l2).2 hsztl hlen2
          constructor
          · show (rebuildT c l2).1.leavesVals ++ leavesL (rebuildL tl (rebuildT c l2).2).1
              = l2.take (leavesL (c :: tl)).length
            rw [hA, hC, hB, hlenc, List.take_add]
          · show (rebuildL tl (rebuildT c l2).2).2 = _
            rw [hD, hB, List.drop_drop, hlenc]
      by_cases hcs : cs.isEmpty
      · have hcs2 : cs = [] := by simpa [List.isEmpty_iff] using hcs
        subst hcs2
        have hlc1 : (Tree.node r ([] : List (Tree β))).leafCount = 1 := rfl
        rw [hlc1] at hlc ⊢
        match l, hlc with
        | x :: rest, _ =>
          constructor
          · show (Tree.node x ([] : List (Tree β))).leavesVals = (x :: rest).take 1
            rfl
          · rfl
      · have hlc1 : (Tree.node r cs).leafCount = (leavesL cs).length := by
          unfold Tree.leafCount
          rw [show (Tree.node r cs).leavesVals
            = if cs.isEmpty then [r] else leavesL cs from rfl, if_neg hcs]
        rw [hlc1] at hlc ⊢
        obtain ⟨hC, hD⟩ := hQ cs l (by omega) hlc
        have hstep : rebuildT (.node r cs) l
            = (.node r (rebuildL cs l).1, (rebuildL cs l).2) := by
          show (if cs.isEmpty then _ else _) = _
          rw [if_neg hcs]
        rw [hstep]
        constructor
        · show (Tree.node r (rebuildL cs l).1).leavesVals = _
          rw [show (Tree.node r (rebuildL cs l).1).leavesVals
            = if (rebuildL cs l).1.isEmpty then [r] else leavesL (rebuildL cs l).1 from rfl]
          rw [if_neg (by
            have := rebuildL_length cs l
            simp only [List.isEmpty_iff] at hcs ⊢
            intro hnil
            apply hcs
            have : cs.length = 0 := by rw [← this, hnil] ; rfl
            exact List.length_eq_zero.mp this)]
          exact hC
        · exact hD



/-- C9: unkify replaces exactly the out-of-vocabulary positions with the
unknown token, recording position and original word; deunkify on a tree
whose in-order leaves match the sentence positions rewrites exactly the
recorded leaves to terminals of the original words and leaves the other
leaves unchanged, so every replaced word is restored. -/
theorem C9_unk_roundtrip {N : Type} (sentence : List Sym) (contains : Sym → Bool)
    (t : Tree (NodeType N Sym)) (hlen : t.leafCount = sentence.length) :
    (∀ j : Nat, (Sentence.unkify sentence contains).1.get? j
      = (sentence.get? j).map (fun w => if contains w then w else unkSym)) ∧
    ((Sentence.unkify sentence contains).2
      = sentence.enum.filter (fun iw => ! contains iw.2)) ∧
    (∀ j w, sentence.get? j = some w → contains w = false →
      (t.deunkify (Sentence.unkify sentence contains).2).leavesVals.get? j
        = some (NodeType.terminal w)) ∧
    (∀ j w, sentence.get? j = some w → contains w = true →
      (t.deunkify (Sentence.unkify sentence contains).2).leavesVals.get? j
        = t.leavesVals.get? j) := by
  have hrec := @unkifyGo_record_filter contains sentence 0
  have hlen2 : ((Sentence.unkify sentence contains).2.foldl
      (fun l iw => l.set iw.1 (NodeType.terminal iw.2)) t.leavesVals).length
      = t.leavesVals.length := foldl_set_length _ _
  have hleaves : (t.deunkify (Sentence.unkify sentence contains).2).leavesVals
      = (Sentence.unkify sentence contains).2.foldl
          (fun l iw => l.set iw.1 (NodeType.terminal iw.2)) t.leavesVals := by
    unfold Tree.deunkify
    have hspec := (rebuild_spec t.size t
      ((Sentence.unkify sentence contains).2.foldl
        (fun l iw => l.set iw.1 (NodeType.terminal iw.2)) t.leavesVals)
      (le_refl _) (by rw [hlen2] ; rfl)).1
    rw [hspec]
    have : t.leafCount = ((Sentence.unkify sentence contains).2.foldl
        (fun l iw => l.set iw.1 (NodeType.terminal iw.2)) t.leavesVals).length := by
      rw [hlen2] ; rfl
    rw [this, List.take_length]
  have hnodup : ((Sentence.unkify sentence contains).2.map Prod.fst).Nodup := by
    have hp := @unkifyGo_record_sorted contains sentence 0
    have hp2 : ((Sentence.unkify sentence contains).2.map Prod.fst).Pairwise (· < ·) :=
      List.pairwise_map.mpr hp
    exact hp2.imp Nat.ne_of_lt
  refine ⟨fun j => unkifyGo_sentence_get sentence 0 j, hrec, ?_, ?_⟩
  · intro j w hj hw
    have hjlt : j < sentence.length := by
      rcases List.get?_eq_some.mp hj with ⟨h, _⟩
      exact h
    have hmem : (j, w) ∈ (Sentence.unkify sentence contains).2 := by
      have := unkifyGo_record_mem sentence 0 j w hj hw
      simpa using this
    rw [hleaves]
    apply foldl_set_get_mem _ _ j w hmem hnodup
    show j < t.leavesVals.length
    have : t.leavesVals.length = sentence.length := hlen
    omega
  · intro j w hj hw
    rw [hleaves]
    apply foldl_set_get_not_mem
    intro iw hiw hji
    obtain ⟨_, hget, hcon⟩ := unkifyGo_record_spec sentence 0 iw hiw
    rw [hji] at hget
    simp only [Nat.sub_zero] at hget
    rw [hj] at hget
    have : iw.2 = w := by simpa using hget.symm
    rw [this] at hcon
    rw [hw] at hcon
    exact absurd hcon (by decide)

/-- Witness for C9 on the two-word sentence where only the second word is
out of vocabulary; the replaced leaf is restored by deunkify. -/
theorem C9_unk_roundtrip_witness :
    ((Tree.node (NodeType.nonTerminal ['S'])
        [Tree.node (NodeType.terminal ['a'] : NodeType Sym Sym) [],
         Tree.node (NodeType.terminal ['x']) []]).leafCount = 2) ∧
    ((Tree.node (NodeType.nonTerminal ['S'])
        [Tree.node (NodeType.terminal ['a'] : NodeType Sym Sym) [],
         Tree.node (NodeType.terminal ['x']) []]).deunkify
      (Sentence.unkify [['a'], ['x']] (fun w => decide (w = ['a']))).2).leavesVals.get? 1
      = some (NodeType.terminal ['x']) :=
  ⟨by decide,
   (C9_unk_roundtrip [['a'], ['x']] (fun w => decide (w = ['a']))
      (Tree.node (NodeType.nonTerminal ['S'])
        [Tree.node (NodeType.terminal ['a']) [], Tree.node (NodeType.terminal ['x']) []])
      (by decide)).2.2.1 1 ['x'] (by decide) (by decide)⟩

theorem foldl_inv {α σ : Type} (P : σ → Prop) (f : σ → α → σ) :
    ∀ (l : List α) (init : σ), (∀ s x, P s → P (f s x)) → P init → P (l.foldl f init) := by
  intro l
  induction l with
  | nil => intro init _ h0; exact h0
  | cons a tl ih =>
    intro init hstep h0
    exact ih (f init a) hstep (hstep init a h0)

theorem foldl_const {α σ : Type} (l : List α) (init : σ) :
    l.foldl (fun s _ => s) init = init := by
  induction l generalizing init with
  | nil => rfl
  | cons a tl ih => exact ih init

theorem getD_allDefault : ∀ (c : List ChartEntry) (i : Nat),
    (∀ x ∈ c, x = chartDefault) → c.getD i chartDefault = chartDefault := by
  intro c
  induction c with
  | nil => intro i _; cases i <;> rfl
  | cons a tl ih =>
    intro i h
    cases i with
    | zero => exact h a (List.mem_cons_self a tl)
    | succ j => exact ih j (fun x hx => h x (List.mem_cons_of_mem a hx))

theorem readCell_allDefault (ch : List ChartEntry) (start num : Nat)
    (h : ∀ x ∈ ch, x = chartDefault) :
    ∀ x ∈ readCell ch start num, x = chartDefault := by
  intro x hx
  exact h x (List.drop_subset _ _ (List.take_subset _ _ hx))

theorem writeCell_allDefault (ch : List ChartEntry) (start : Nat) (cell : List ChartEntry)
    (h : ∀ x ∈ ch, x = chartDefault) (hc : ∀ x ∈ cell, x = chartDefault) :
    ∀ x ∈ writeCell ch start cell, x = chartDefault := by
  intro x hx
  unfold writeCell at hx
  rcases List.mem_append.mp hx with hx | hx
  · rcases List.mem_append.mp hx with hx | hx
    · exact h x (List.take_subset _ _ hx)
    · exact hc x hx
  · exact h x (List.drop_subset _ _ hx)

theorem snd_mem_of_enumFrom {β : Type} :
    ∀ {l : List β} {n : Nat} {x : Nat × β}, x ∈ l.enumFrom n → x.2 ∈ l := by
  intro l
  induction l with
  | nil => intro n x hx; simp [List.enumFrom] at hx
  | cons a tl ih =>
    intro n x hx
    rcases List.mem_cons.mp hx with hx | hx
    · rw [hx]; exact List.mem_cons_self a tl
    · exact List.mem_cons_of_mem a (ih hx)

theorem closureGo_nil {N T : Type} (g : GrammarParse N T) (n : Nat) (cell : List ChartEntry) :
    closureGo g (n + 1) [] cell = cell := rfl

theorem unary_closure_allDefault {N T : Type} (g : GrammarParse N T) (c : List ChartEntry)
    (h : ∀ x ∈ c, x = chartDefault) :
    unary_closure g c = c.map (fun _ => chartDefault) := by
  have hq : c.enum.filter (fun iw => decide (iw.2.1 ≠ 0)) = [] := by
    rw [List.filter_eq_nil_iff]
    intro a ha
    have h2 : a.2 = chartDefault := h a.2 (snd_mem_of_enumFrom ha)
    simp [h2, chartDefault]
  simp only [unary_closure]
  rw [hq]
  simp only [List.map_nil, List.length_nil, Nat.zero_add, Nat.mul_one]
  exact closureGo_nil g c.length (c.map (fun _ => chartDefault))

theorem applyMode_allDefault (mode : CykMode) (c : List ChartEntry)
    (h : ∀ x ∈ c, x = chartDefault) :
    ∀ x ∈ applyMode mode c, x = chartDefault := by
  cases mode with
  | base => exact h
  | pruneThreshold t =>
    intro x hx
    simp only [applyMode, prune_threshold] at hx
    rcases List.mem_map.mp hx with ⟨e, he, hfe⟩
    rw [h e he] at hfe
    rw [ite_self] at hfe
    exact hfe.symm
  | pruneFixedSize n =>
    intro x hx
    simp only [applyMode, prune_fixed_size] at hx
    rcases List.mem_map.mp hx with ⟨e, he, hfe⟩
    rw [h e he] at hfe
    rw [ite_self] at hfe
    exact hfe.symm

theorem cellstep_allDefault {N T : Type} (g : GrammarParse N T) (mode : CykMode)
    (ch : List ChartEntry) (start num : Nat) (h : ∀ x ∈ ch, x = chartDefault) :
    ∀ x ∈ writeCell ch start (applyMode mode (unary_closure g (readCell ch start num))),
      x = chartDefault := by
  have hrc : ∀ x ∈ readCell ch start num, x = chartDefault :=
    readCell_allDefault ch start num h
  have huc := unary_closure_allDefault g (readCell ch start num) hrc
  have ham : ∀ x ∈ applyMode mode (unary_closure g (readCell ch start num)),
      x = chartDefault := by
    apply applyMode_allDefault
    rw [huc]
    intro x hx
    rcases List.mem_map.mp hx with ⟨e, _, he⟩
    exact he.symm
  exact writeCell_allDefault ch start _ h ham

theorem chart_setup_allDefault {N T : Type} (g0 : N) (sentence : List T)
    (chart : List ChartEntry) (mode : CykMode)
    (h : ∀ x ∈ chart, x = chartDefault) :
    ∀ x ∈ chart_setup (GrammarParse.new g0) sentence chart mode, x = chartDefault := by
  have hcs : chart_setup (GrammarParse.new g0 : GrammarParse N T) sentence chart mode
      = sentence.enum.foldl (fun ch iw =>
          writeCell ch (iw.1 * 1)
            (applyMode mode (unary_closure (GrammarParse.new g0 : GrammarParse N T)
              (readCell ch (iw.1 * 1) 1)))) chart := rfl
  rw [hcs]
  refine foldl_inv (fun ch => ∀ x ∈ ch, x = chartDefault) _ _ chart ?_ h
  intro s iw hs
  exact cellstep_allDefault _ mode s (iw.1 * 1) 1 hs

theorem cyk_fill_allDefault {N T : Type} (g0 : N) (mode : CykMode) (s_len num_nt : Nat)
    (rs : List Nat) (chart : List ChartEntry) (h : ∀ x ∈ chart, x = chartDefault) :
    ∀ x ∈ rs.foldl (fun ch r =>
      (List.range (s_len - r + 1)).foldl (fun ch i =>
        writeCell ((List.range num_nt).foldl (fun ch3 _ =>
            (List.range' (i + 1) (r - 1)).foldl (fun ch4 _ => ch4) ch3) ch)
          (cell_start_index s_len num_nt i r)
          (applyMode mode (unary_closure (GrammarParse.new g0 : GrammarParse N T)
            (readCell ((List.range num_nt).foldl (fun ch3 _ =>
                (List.range' (i + 1) (r - 1)).foldl (fun ch4 _ => ch4) ch3) ch)
              (cell_start_index s_len num_nt i r) num_nt)))) ch) chart,
      x = chartDefault := by
  refine foldl_inv (fun ch => ∀ x ∈ ch, x = chartDefault) _ rs chart ?_ h
  intro s r hs
  refine foldl_inv (fun ch => ∀ x ∈ ch, x = chartDefault) _ _ s ?_ hs
  intro s2 i hs2
  simp only [foldl_const]
  exact cellstep_allDefault _ mode s2 _ _ hs2

theorem construct_best_tree_allDefault {N T : Type} (n : Nat) (c : List ChartEntry)
    (idx : Nat) (s : List T) (lk : List N) (h : ∀ x ∈ c, x = chartDefault) :
    construct_best_tree (n + 1) c idx s lk = none := by
  have h3 : (c.getD idx chartDefault).2 = none := by
    rw [getD_allDefault c idx h]
    rfl
  simp only [construct_best_tree]
  rw [h3]

/-- C8: on a decoder grammar into which no rules were inserted (only the
initial non-terminal interned), the cyk decoder returns none for every
non-empty sentence, in every mode: the chart stays at its default
entries, so the root cell carries no backtrace and tree reconstruction
fails immediately. -/
theorem C8_empty_grammar_none {N T : Type} (g0 : N) (sentence : List T)
    (mode : CykMode) (hne : sentence ≠ []) :
    cyk (GrammarParse.new g0) sentence mode = none := by
  unfold cyk
  apply construct_best_tree_allDefault
  apply cyk_fill_allDefault
  apply chart_setup_allDefault
  intro x hx
  exact List.eq_of_mem_replicate hx

/-- Witness for C8 on a one-word sentence in base mode. -/
theorem C8_empty_grammar_none_witness :
    ([['a']] : List Sym) ≠ [] ∧
    cyk (GrammarParse.new (['S'] : Sym)) [(['a'] : Sym)] CykMode.base = none :=
  ⟨by decide, C8_empty_grammar_none ['S'] [['a']] CykMode.base (by decide)⟩

theorem leaf_eta {α : Type} (c : Tree α) (h : c.is_leaf = true) :
    c = Tree.node c.root [] := by
  cases c with
  | node r cs =>
    cases cs with
    | nil => rfl
    | cons a tl => simp [Tree.is_leaf, Tree.children] at h

theorem cleanTreeL_mem : ∀ {cs : List (Tree Sym)} {c : Tree Sym},
    cleanTreeL cs → c ∈ cs → cleanTree c := by
  intro cs
  induction cs with
  | nil => intro c _ hc; cases hc
  | cons a tl ih =>
    intro c h hc
    rcases List.mem_cons.mp hc with hc | hc
    · rw [hc]; exact h.1
    · exact ih h.2 hc

theorem layeredL_mem {α : Type} : ∀ {cs : List (Tree α)} {c : Tree α},
    layeredL cs → c ∈ cs → layered c := by
  intro cs
  induction cs with
  | nil => intro c _ hc; cases hc
  | cons a tl ih =>
    intro c h hc
    rcases List.mem_cons.mp hc with hc | hc
    · rw [hc]; exact h.1
    · exact ih h.2 hc

theorem smallArityL_mem {α : Type} : ∀ {cs : List (Tree α)} {c : Tree α},
    smallArityL cs → c ∈ cs → smallArity c := by
  intro cs
  induction cs with
  | nil => intro c _ hc; cases hc
  | cons a tl ih =>
    intro c h hc
    rcases List.mem_cons.mp hc with hc | hc
    · rw [hc]; exact h.1
    · exact ih h.2 hc

theorem cleanTree_root {c : Tree Sym} (h : cleanTree c) : cleanSym c.root := by
  cases c with
  | node r cs => exact h.1

theorem getLast_map_eq {α β : Type} (f : α → β) :
    ∀ (l : List α), (l.map f).getLast? = l.getLast?.map f := by
  intro l
  induction l with
  | nil => rfl
  | cons a tl ih =>
    cases tl with
    | nil => rfl
    | cons b tl2 =>
      rw [List.map_cons, List.map_cons, List.getLast?_cons_cons, List.getLast?_cons_cons,
        ← List.map_cons]
      exact ih

theorem mem_of_getLastSome {α : Type} : ∀ {l : List α} {a : α},
    l.getLast? = some a → a ∈ l := by
  intro l
  induction l with
  | nil => intro a h; cases h
  | cons x tl ih =>
    intro a h
    cases tl with
    | nil =>
      have : x = a := by
        have h2 : (some x : Option α) = some a := h
        exact Option.some.inj h2
      rw [← this]; exact List.mem_cons_self x []
    | cons y tl2 =>
      rw [List.getLast?_cons_cons] at h
      exact List.mem_cons_of_mem x (ih h)

theorem map_id_of_eq {α : Type} : ∀ {l : List α} {f : α → α},
    (∀ c ∈ l, f c = c) → l.map f = l := by
  intro l
  induction l with
  | nil => intro f _; rfl
  | cons a tl ih =>
    intro f h
    rw [List.map_cons, h a (List.mem_cons_self a tl),
      ih (fun c hc => h c (List.mem_cons_of_mem a hc))]

theorem deb_nil {α : Type} (r : Binarized α) :
    (Tree.node r ([] : List (Tree (Binarized α)))).debinarize
      = Tree.node r.extract_label [] := rfl

theorem deb_collapse {α : Type} (root : Binarized α) (cs : List (Tree (Binarized α)))
    (last : Tree (Binarized α)) (hlast : cs.getLast? = some last)
    (hb : (last.root.is_markovized && last.children.length == 2) = true) :
    (Tree.node root cs).debinarize
      = (Tree.node root (cs.dropLast ++ last.children)).debinarize := by
  have hstep : (Tree.node root cs).debinarize = debinarizeF (sizeL cs + 1) (.node root cs) :=
    debinarize_eq_debinarizeF (by rw [Tree.size] ; omega)
  rw [hstep]
  simp only [debinarizeF]
  rw [hlast]
  show (if (last.root.is_markovized && last.children.length == 2) = true
    then debinarizeF (sizeL cs) (.node root (cs.dropLast ++ last.children))
    else Tree.node root.extract_label (cs.map (debinarizeF (sizeL cs)))) = _
  rw [if_pos hb]
  exact (debinarize_eq_debinarizeF (by rw [collapse_size hlast root])).symm

theorem deb_nocollapse {α : Type} (root : Binarized α) (cs : List (Tree (Binarized α)))
    (last : Tree (Binarized α)) (hlast : cs.getLast? = some last)
    (hb : (last.root.is_markovized && last.children.length == 2) = false) :
    (Tree.node root cs).debinarize
      = Tree.node root.extract_label (cs.map Tree.debinarize) := by
  have hstep : (Tree.node root cs).debinarize = debinarizeF (sizeL cs + 1) (.node root cs) :=
    debinarize_eq_debinarizeF (by rw [Tree.size] ; omega)
  rw [hstep]
  simp only [debinarizeF]
  rw [hlast]
  show (if (last.root.is_markovized && last.children.length == 2) = true
    then debinarizeF (sizeL cs) (.node root (cs.dropLast ++ last.children))
    else Tree.node root.extract_label (cs.map (debinarizeF (sizeL cs)))) = _
  rw [if_neg (by simp [hb])]
  congr 1
  apply List.map_congr_left
  intro c hc
  exact (debinarize_eq_debinarizeF (Tree.size_le_sizeL hc)).symm

theorem mark_pre (root : Sym) (cs : List (Tree Sym)) (v h : Nat) (p : List Sym)
    (hpre : cs.all Tree.is_leaf = true) :
    (Tree.node root cs).markovize v h p
      = Tree.node (.bare root) (cs.map (fun c => Tree.node (.bare c.root) [])) := by
  rw [markovize_eq_markovizeF (show (Tree.node root cs).size ≤ sizeL cs + 1 by
    rw [Tree.size] ; omega)]
  simp only [markovizeF]
  rw [if_pos hpre]

theorem mark_small_bare (root : Sym) (cs : List (Tree Sym)) (v h : Nat) (p : List Sym)
    (hpre : ¬ (cs.all Tree.is_leaf = true)) (hlen : cs.length ≤ 2) (hclean : cleanSym root) :
    (Tree.node root cs).markovize v h p
      = Tree.node (.markovized ⟨root, [], p⟩)
          (cs.map (fun c => c.markovize v h (augment_parents p root v))) := by
  rw [markovize_eq_markovizeF (show (Tree.node root cs).size ≤ sizeL cs + 1 by
    rw [Tree.size] ; omega)]
  simp only [markovizeF]
  rw [if_neg hpre, if_pos hlen, fromStr_bare hclean]
  show Tree.node (.markovized ⟨root, [], p⟩)
      (cs.map (fun c => markovizeF (sizeL cs) c v h
        (augment_parents p ((Binarized.bare root).extract_label) v))) = _
  congr 1
  apply List.map_congr_left
  intro c hc
  exact (markovize_eq_markovizeF (Tree.size_le_sizeL hc)).symm

theorem mark_small_marked (lab : Sym) (cs : List (Tree Sym)) (v h : Nat) (p : List Sym)
    (mk : MarkovizedNode Sym)
    (hpre : ¬ (cs.all Tree.is_leaf = true)) (hlen : cs.length ≤ 2)
    (hm : Binarized.fromStr lab = some (.markovized mk)) :
    (Tree.node lab cs).markovize v h p
      = Tree.node (.markovized ⟨mk.label, mk.children, p⟩)
          (cs.map (fun c => c.markovize v h (augment_parents p mk.label v))) := by
  rw [markovize_eq_markovizeF (show (Tree.node lab cs).size ≤ sizeL cs + 1 by
    rw [Tree.size] ; omega)]
  simp only [markovizeF]
  rw [if_neg hpre, if_pos hlen, hm]
  show Tree.node (.markovized ⟨mk.label, mk.children, p⟩)
      (cs.map (fun c => markovizeF (sizeL cs) c v h
        (augment_parents p ((Binarized.markovized mk).extract_label) v))) = _
  congr 1
  apply List.map_congr_left
  intro c hc
  exact (markovize_eq_markovizeF (Tree.size_le_sizeL hc)).symm

theorem mark_large (root : Sym) (c1 : Tree Sym) (rest : List (Tree Sym)) (v h : Nat)
    (p : List Sym)
    (hpre : ¬ ((c1 :: rest).all Tree.is_leaf = true)) (hlen : ¬ ((c1 :: rest).length ≤ 2))
    (hclean : cleanSym root) :
    (Tree.node root (c1 :: rest)).markovize v h p
      = Tree.node (.markovized ⟨root, [], p⟩)
          [c1.markovize v h (augment_parents p root v),
           (Tree.node (displayMarkovized ⟨root, (rest.take h).map Tree.root, []⟩)
             rest).markovize v h p] := by
  rw [markovize_eq_markovizeF (show (Tree.node root (c1 :: rest)).size
      ≤ sizeL (c1 :: rest) + 1 by rw [Tree.size] ; omega)]
  simp only [markovizeF]
  rw [if_neg hpre, if_neg hlen, fromStr_bare hclean]
  congr 1
  congr 1
  · exact (markovize_eq_markovizeF (Tree.size_le_sizeL (List.mem_cons_self _ _))).symm
  · congr 1
    exact (markovize_eq_markovizeF (show (Tree.node (displayMarkovized
        ⟨root, (rest.take h).map Tree.root, []⟩) rest).size ≤ sizeL (c1 :: rest) by
      rw [Tree.size]
      have h1 : sizeL (c1 :: rest) = c1.size + sizeL rest := rfl
      have h2 := Tree.size_pos c1
      omega)).symm

theorem markovize_root_not_marked : ∀ (fuel : Nat) (t : Tree Sym) (v h : Nat) (p : List Sym),
    cleanSym t.root → ((markovizeF fuel t v h p).root).is_markovized = false := by
  intro fuel
  cases fuel with
  | zero => intro t v h p _; rfl
  | succ n =>
    intro t v h p hc
    cases t with
    | node root cs =>
      have hc2 : cleanSym root := hc
      show ((markovizeF (n + 1) (.node root cs) v h p).root).is_markovized = false
      simp only [markovizeF]
      by_cases hpre : cs.all Tree.is_leaf = true
      · rw [if_pos hpre]; rfl
      · rw [if_neg hpre]
        by_cases hlen : cs.length ≤ 2
        · rw [if_pos hlen, fromStr_bare hc2]
          rfl
        · rw [if_neg hlen]
          rfl

theorem deb_mark_aux : ∀ (n : Nat) (t : Tree Sym), t.size ≤ n →
    cleanTree t → layered t → smallArity t →
    ∀ (v h : Nat) (p : List Sym), 1 ≤ h →
    (t.markovize v h p).debinarize = t := by
  intro n
  induction n with
  | zero =>
    intro t hsz
    have := Tree.size_pos t
    omega
  | succ n ih =>
    intro t hsz hclean hlay hsa v h p hh
    cases t with
    | node root cs =>
      rw [Tree.size] at hsz
      have hszcs : sizeL cs ≤ n := by omega
      obtain ⟨hcr, hcl⟩ := hclean
      obtain ⟨hlo, hll⟩ := hlay
      obtain ⟨hs3, hsl⟩ := hsa
      by_cases hpre : cs.all Tree.is_leaf = true
      · -- preterminal branch: bare root over bare leaf children
        rw [mark_pre root cs v h p hpre]
        cases hcs : cs with
        | nil =>
          subst hcs
          exact deb_nil (.bare root)
        | cons c1 rest =>
          subst hcs
          have hlastm := getLast_map_eq
            (fun c => Tree.node (Binarized.bare c.root) ([] : List (Tree (Binarized Sym))))
            (c1 :: rest)
          cases hgl : (c1 :: rest).getLast? with
          | none => simp at hgl
          | some lc =>
            rw [hgl] at hlastm
            simp only [Option.map_some'] at hlastm
            rw [deb_nocollapse _ _ _ hlastm (by rfl)]
            rw [List.map_map]
            show Tree.node root ((c1 :: rest).map (Tree.debinarize ∘
              (fun c => Tree.node (Binarized.bare c.root) []))) = Tree.node root (c1 :: rest)
            congr 1
            apply map_id_of_eq
            intro c hcm
            have hleaf : c.is_leaf = true := List.all_eq_true.mp hpre c hcm
            show (Tree.node (Binarized.bare c.root) []).debinarize = c
            rw [deb_nil]
            conv_rhs => rw [leaf_eta c hleaf]
            rfl
      · by_cases hlen : cs.length ≤ 2
        · -- small-arity branch
          rw [mark_small_bare root cs v h p hpre hlen hcr]
          cases hcs : cs with
          | nil =>
            subst hcs
            exact absurd rfl hpre
          | cons c1 rest =>
            subst hcs
            have hlastm := getLast_map_eq
              (fun c => c.markovize v h (augment_parents p root v)) (c1 :: rest)
            cases hgl : (c1 :: rest).getLast? with
            | none => simp at hgl
            | some lc =>
              rw [hgl] at hlastm
              simp only [Option.map_some'] at hlastm
              have hlcmem : lc ∈ c1 :: rest := mem_of_getLastSome hgl
              have hroot : ((lc.markovize v h (augment_parents p root v)).root).is_markovized
                  = false :=
                markovize_root_not_marked _ _ _ _ _ (cleanTree_root (cleanTreeL_mem hcl hlcmem))
              rw [deb_nocollapse _ _ _ hlastm (by rw [hroot] ; rfl)]
              rw [List.map_map]
              show Tree.node root ((c1 :: rest).map (Tree.debinarize ∘
                (fun c => Tree.markovize c v h (augment_parents p root v))))
                = Tree.node root (c1 :: rest)
              congr 1
              apply map_id_of_eq
              intro c hcm
              show (Tree.markovize c v h (augment_parents p root v)).debinarize = c
              exact ih c (le_trans (Tree.size_le_sizeL hcm) hszcs) (cleanTreeL_mem hcl hcm)
                (layeredL_mem hll hcm) (smallArityL_mem hsl hcm) v h _ hh
        · -- binarizing branch: exactly three children, all internal
          rcases cs with _ | ⟨c1, _ | ⟨c2, _ | ⟨c3, _ | ⟨c4, rest⟩⟩⟩⟩
          · exact absurd (by simp) hlen
          · exact absurd (by simp) hlen
          · exact absurd (by simp) hlen
          · -- cs = [c1, c2, c3]
            have hint : ([c1, c2, c3].all (fun c => ! c.is_leaf)) = true := by
              rcases hlo with hl1 | hl2
              · exact absurd hl1 hpre
              · exact hl2
            have hc2nl : c2.is_leaf = false := by
              have h2 := List.all_eq_true.mp hint c2 (by simp)
              simp only [Bool.not_eq_true'] at h2
              exact h2
            have hszc1 : c1.size ≤ n :=
              le_trans (Tree.size_le_sizeL (by simp)) hszcs
            have hszc2 : c2.size ≤ n :=
              le_trans (Tree.size_le_sizeL (by simp)) hszcs
            have hszc3 : c3.size ≤ n :=
              le_trans (Tree.size_le_sizeL (by simp)) hszcs
            have hclc1 : cleanTree c1 := cleanTreeL_mem hcl (by simp)
            have hclc2 : cleanTree c2 := cleanTreeL_mem hcl (by simp)
            have hclc3 : cleanTree c3 := cleanTreeL_mem hcl (by simp)
            have hlayc1 : layered c1 := layeredL_mem hll (by simp)
            have hlayc2 : layered c2 := layeredL_mem hll (by simp)
            have hlayc3 : layered c3 := layeredL_mem hll (by simp)
            have hsac1 : smallArity c1 := smallArityL_mem hsl (by simp)
            have hsac2 : smallArity c2 := smallArityL_mem hsl (by simp)
            have hsac3 : smallArity c3 := smallArityL_mem hsl (by simp)
            obtain ⟨h', hh'⟩ : ∃ hp, h = hp + 1 := ⟨h - 1, by omega⟩
            subst hh'
            rw [mark_large root c1 [c2, c3] v (h' + 1) p hpre hlen hcr]
            have hsibs_clean : ∀ x ∈ (([c2, c3].take (h' + 1)).map Tree.root), cleanSym x := by
              intro x hx
              rcases List.mem_map.mp hx with ⟨c, hcm1, hcm2⟩
              have hcm : c ∈ [c2, c3] := List.take_subset _ _ hcm1
              rw [← hcm2]
              exact cleanTree_root (cleanTreeL_mem hcl (List.mem_cons_of_mem c1 hcm))
            have hsne : (([c2, c3].take (h' + 1)).map Tree.root) ≠ [] := by
              show (c2.root :: (([c3].take h').map Tree.root)) ≠ []
              exact List.cons_ne_nil _ _
            have hfs : Binarized.fromStr (displayMarkovized
                ⟨root, ([c2, c3].take (h' + 1)).map Tree.root, []⟩)
                = some (.markovized ⟨root, ([c2, c3].take (h' + 1)).map Tree.root, []⟩) :=
              fromStr_markovized hcr hsibs_clean
                (fun x hx => absurd hx (List.not_mem_nil x)) (Or.inl hsne)
            have hnotpre2 : ¬ ([c2, c3].all Tree.is_leaf = true) := by
              intro hcon
              have h2 := List.all_eq_true.mp hcon c2 (by simp)
              rw [hc2nl] at h2
              exact Bool.noConfusion h2
            rw [mark_small_marked _ [c2, c3] v (h' + 1) p
              ⟨root, ([c2, c3].take (h' + 1)).map Tree.root, []⟩ hnotpre2 (by simp) hfs]
            show (Tree.node (Binarized.markovized ⟨root, [], p⟩)
                [Tree.markovize c1 v (h' + 1) (augment_parents p root v),
                 Tree.node (Binarized.markovized
                   ⟨root, ([c2, c3].take (h' + 1)).map Tree.root, p⟩)
                   [Tree.markovize c2 v (h' + 1) (augment_parents p root v),
                    Tree.markovize c3 v (h' + 1) (augment_parents p root v)]]).debinarize
              = Tree.node root [c1, c2, c3]
            have hd1 : (Tree.markovize c1 v (h' + 1) (augment_parents p root v)).debinarize
                = c1 := ih c1 hszc1 hclc1 hlayc1 hsac1 v (h' + 1) _ (by omega)
            have hd2 : (Tree.markovize c2 v (h' + 1) (augment_parents p root v)).debinarize
                = c2 := ih c2 hszc2 hclc2 hlayc2 hsac2 v (h' + 1) _ (by omega)
            have hd3 : (Tree.markovize c3 v (h' + 1) (augment_parents p root v)).debinarize
                = c3 := ih c3 hszc3 hclc3 hlayc3 hsac3 v (h' + 1) _ (by omega)
            have hr3 : ((Tree.markovize c3 v (h' + 1)
                (augment_parents p root v)).root).is_markovized = false :=
              markovize_root_not_marked _ _ _ _ _ (cleanTree_root hclc3)
            generalize hM1 : Tree.markovize c1 v (h' + 1) (augment_parents p root v) = M1
              at hd1
            generalize hM2 : Tree.markovize c2 v (h' + 1) (augment_parents p root v) = M2
              at hd2
            generalize hM3 : Tree.markovize c3 v (h' + 1) (augment_parents p root v) = M3
              at hd3 hr3
            rw [deb_collapse (Binarized.markovized ⟨root, [], p⟩)
              [M1, Tree.node (Binarized.markovized
                ⟨root, ([c2, c3].take (h' + 1)).map Tree.root, p⟩) [M2, M3]]
              (Tree.node (Binarized.markovized
                ⟨root, ([c2, c3].take (h' + 1)).map Tree.root, p⟩) [M2, M3])
              rfl (by rfl)]
            show (Tree.node (Binarized.markovized ⟨root, [], p⟩) [M1, M2, M3]).debinarize
              = Tree.node root [c1, c2, c3]
            rw [deb_nocollapse (Binarized.markovized ⟨root, [], p⟩) [M1, M2, M3] M3 rfl
              (by rw [hr3] ; rfl)]
            show Tree.node root [M1.debinarize, M2.debinarize, M3.debinarize]
              = Tree.node root [c1, c2, c3]
            rw [hd1, hd2, hd3]
          · exfalso
            simp only [List.length_cons] at hs3
            omega

/-- C1 counterexample: debinarize after markovize is not the identity for
all parameters on all annotation-free trees.  With horizontal parameter
zero the synthetic binarization node gets an empty sibling annotation and
is never collapsed, and with four or more children the freshly formatted
intermediate label survives as a raw label on an uncollapsible node, so
the round trip changes the tree even for large horizontal parameters. -/
theorem C1_roundtrip_counterexample :
    ((Tree.node ['S'] [Tree.node ['A'] [Tree.node ['a'] []],
        Tree.node ['B'] [Tree.node ['b'] []],
        Tree.node ['C'] [Tree.node ['c'] []]]).markovize 1 0 []).debinarize
      ≠ Tree.node ['S'] [Tree.node ['A'] [Tree.node ['a'] []],
          Tree.node ['B'] [Tree.node ['b'] []],
          Tree.node ['C'] [Tree.node ['c'] []]] ∧
    ((Tree.node ['S'] [Tree.node ['A'] [Tree.node ['a'] []],
        Tree.node ['B'] [Tree.node ['b'] []],
        Tree.node ['C'] [Tree.node ['c'] []],
        Tree.node ['D'] [Tree.node ['d'] []]]).markovize 1 999 []).debinarize
      ≠ Tree.node ['S'] [Tree.node ['A'] [Tree.node ['a'] []],
          Tree.node ['B'] [Tree.node ['b'] []],
          Tree.node ['C'] [Tree.node ['c'] []],
          Tree.node ['D'] [Tree.node ['d'] []]] :=
  ⟨fun he => absurd (congrArg Tree.flat he) (by decide),
   fun he => absurd (congrArg Tree.flat he) (by decide)⟩

/-- C1 amended: on trees with clean bare labels, layered structure (each
node's children all leaves or all internal) and at most three children
per node, debinarize after markovize with empty initial parents returns
the original tree for every vertical parameter and every horizontal
parameter of at least one. -/
theorem C1_markovize_roundtrip (t : Tree Sym) (v h : Nat)
    (hclean : cleanTree t) (hlay : layered t) (hsa : smallArity t) (hh : 1 ≤ h) :
    (t.markovize v h []).debinarize = t :=
  deb_mark_aux t.size t (le_refl _) hclean hlay hsa v h [] hh

/-- Witness for C1 on a ternary clean layered tree with vertical
parameter two and horizontal parameter one. -/
theorem C1_markovize_roundtrip_witness :
    cleanTree (Tree.node ['S'] [Tree.node ['A'] [Tree.node ['a'] []],
      Tree.node ['B'] [Tree.node ['b'] []],
      Tree.node ['C'] [Tree.node ['c'] []]]) ∧
    layered (Tree.node ['S'] [Tree.node ['A'] [Tree.node ['a'] []],
      Tree.node ['B'] [Tree.node ['b'] []],
      Tree.node ['C'] [Tree.node ['c'] []]]) ∧
    smallArity (Tree.node ['S'] [Tree.node ['A'] [Tree.node ['a'] []],
      Tree.node ['B'] [Tree.node ['b'] []],
      Tree.node ['C'] [Tree.node ['c'] []]]) ∧
    1 ≤ 1 ∧
    ((Tree.node ['S'] [Tree.node ['A'] [Tree.node ['a'] []],
      Tree.node ['B'] [Tree.node ['b'] []],
      Tree.node ['C'] [Tree.node ['c'] []]]).markovize 2 1 []).debinarize
      = Tree.node ['S'] [Tree.node ['A'] [Tree.node ['a'] []],
          Tree.node ['B'] [Tree.node ['b'] []],
          Tree.node ['C'] [Tree.node ['c'] []]] := by
  have hcl : cleanTree (Tree.node ['S'] [Tree.node ['A'] [Tree.node ['a'] []],
      Tree.node ['B'] [Tree.node ['b'] []],
      Tree.node ['C'] [Tree.node ['c'] []]]) :=
    ⟨⟨by decide, by decide⟩,
     ⟨⟨by decide, by decide⟩, ⟨⟨by decide, by decide⟩, trivial⟩, trivial⟩,
     ⟨⟨by decide, by decide⟩, ⟨⟨by decide, by decide⟩, trivial⟩, trivial⟩,
     ⟨⟨by decide, by decide⟩, ⟨⟨by decide, by decide⟩, trivial⟩, trivial⟩, trivial⟩
  have hlay : layered (Tree.node ['S'] [Tree.node ['A'] [Tree.node ['a'] []],
      Tree.node ['B'] [Tree.node ['b'] []],
      Tree.node ['C'] [Tree.node ['c'] []]]) :=
    ⟨Or.inr (by decide),
     ⟨Or.inl (by decide), ⟨Or.inl (by decide), trivial⟩, trivial⟩,
     ⟨Or.inl (by decide), ⟨Or.inl (by decide), trivial⟩, trivial⟩,
     ⟨Or.inl (by decide), ⟨Or.inl (by decide), trivial⟩, trivial⟩, trivial⟩
  have hsa : smallArity (Tree.node ['S'] [Tree.node ['A'] [Tree.node ['a'] []],
      Tree.node ['B'] [Tree.node ['b'] []],
      Tree.node ['C'] [Tree.node ['c'] []]]) :=
    ⟨by decide,
     ⟨by decide, ⟨by decide, trivial⟩, trivial⟩,
     ⟨by decide, ⟨by decide, trivial⟩, trivial⟩,
     ⟨by decide, ⟨by decide, trivial⟩, trivial⟩, trivial⟩
  exact ⟨hcl, hlay, hsa, by decide,
    C1_markovize_roundtrip _ 2 1 hcl hlay hsa (by decide)⟩

end Pcfg
